import Mathlib

/-!
Verification of the type dependency graph builder and topological orderer of
`typelib` (`src/typelib/graph.py`).

The development shallowly embeds:

* the descriptor/type model (`TypeDescriptor` of the spec),
* the introspection collaborators (`typelib.inspection`, not part of the
  sources; modelled from the spec where noted),
* `TypeNode`, `_level` and the breadth-first loop of `get_type_graph`,
* the CPython `graphlib.TopologicalSorter` (`add`/`static_order`) that the
  code delegates ordering to, and
* the memoising public entry point `static_order`.

All definitions are executable; the theorems at the end settle the frozen
claims about the code.
-/

namespace Typelib

/--
A type descriptor.  `prim` is a plain (non-subscripted) builtin/stdlib
primitive such as `int`, `str` or `datetime`; `comp` is a composite type — a
parameterized generic (carrying type arguments) or a structured aggregate
(carrying named member annotations) or both — identified by an index into a
`TypeEnv` (the indirection through the environment is what lets composite
types be self-referential, directly or through intermediaries); `ref` is a
lazy forward reference as built by `refs.forwardref(refname,
is_argument=..., module=..., is_class=...)`; `anyTy` stands for the two
"no type information" sentinels `constants.empty` and `typing.Any`, which
the builder skips.  Equality of descriptors mirrors Python `==` on type
objects: every Python type object reachable in a build corresponds to one
descriptor value, with `==`-equal objects sharing one descriptor.
-/
inductive Desc where
  | prim (name : String)
  | comp (id : Nat)
  | ref (name : String) (isArgument : Bool) (mod : Option String) (isClass : Bool)
  | anyTy
deriving DecidableEq, Repr

/--
The definition of one composite type: its qualified name, its module,
whether it is classified as a builtin/stdlib type, the type arguments it is
subscripted with (empty for a plain class) and its named member annotations
in declaration order.
-/
structure CompDef where
  name : String
  mod : Option String
  stdlib : Bool
  args : List Desc
  fields : List (String × Desc)

/-- The ambient universe of composite types: what `comp i` refers to. -/
abbrev TypeEnv := Nat → CompDef

/--
Modelled from the spec: `typelib.inspection.isstdlibtype`
(`is_builtin_primitive` at the spec interface boundary; the sources of the
inspection module are not part of this repository).  Plain primitives and
stdlib containers are builtin/stdlib, user-defined aggregates are not;
ForwardRef and `typing.Any` live in the stdlib `typing` module.
-/
def isstdlibtype (env : TypeEnv) : Desc → Bool
  | .prim _ => true
  | .comp i => (env i).stdlib
  | .ref _ _ _ _ => true
  | .anyTy => true

/--
Modelled from the spec: `typelib.inspection.issubscriptedgeneric`
(`is_parameterized_generic` at the spec interface boundary): true exactly
for a parameterized generic, i.e. a composite carrying type arguments.
-/
def issubscriptedgeneric (env : TypeEnv) : Desc → Bool
  | .comp i => !(env i).args.isEmpty
  | _ => false

/--
Modelled from the spec: `typelib.inspection.get_qualname`
(`qualified_name` at the spec interface boundary).
-/
def get_qualname (env : TypeEnv) : Desc → String
  | .prim n => n
  | .comp i => (env i).name
  | .ref n _ _ _ => n
  | .anyTy => "Any"

/-- The embedding of `getattr(child, "__module__", None)`. -/
def get_module (env : TypeEnv) : Desc → Option String
  | .prim _ => some "builtins"
  | .comp i => (env i).mod
  | .ref _ _ m _ => m
  | .anyTy => some "typing"

/-- The embedding of `inspect.isclass`: plain classes are classes, while
subscripted generic aliases, ForwardRefs and `typing.Any` are not. -/
def isclass (env : TypeEnv) : Desc → Bool
  | .prim _ => true
  | .comp i => (env i).args.isEmpty
  | .ref _ _ _ _ => false
  | .anyTy => false

/-- The embedding of `refs.forwardref(refname, is_argument=..., module=...,
is_class=...)`: it builds a ForwardRef descriptor. -/
def forwardref (name : String) (isArgument : Bool) (mod : Option String)
    (isClass : Bool) : Desc :=
  .ref name isArgument mod isClass

/--
`TypeNode` of `graph.py`: a graph vertex holding a type descriptor, the
optional field label it was discovered under (`var`), and the cyclic flag.
Equality is the dataclass-generated one and compares all three fields (the
class overrides `__hash__` only, not `__eq__`).
-/
structure TypeNode where
  type : Desc
  var : Option String := none
  cyclic : Bool := false
deriving DecidableEq, Repr

/--
`_level` of `graph.py`: the ordered `(field label, child descriptor)` pairs
one level below a descriptor — the type arguments first (label `none`), then
the named member annotations in declaration order.  Modelled from the spec
for the inspection calls it wraps: plain scalar types, forward references
and the `Any` sentinel yield an empty level.
-/
def _level (env : TypeEnv) : Desc → List (Option String × Desc)
  | .prim _ => []
  | .comp i =>
      (env i).args.map (fun a => (none, a)) ++
        (env i).fields.map (fun p => (some p.1, p.2))
  | .ref _ _ _ _ => []
  | .anyTy => []

/-! ### The CPython `graphlib.TopologicalSorter` state

The sorter's `_node2info` dict maps each node to its info record
(`npredecessors` count and `successors` list).  We represent the dict as a
list of records in insertion order; Python dict lookup uses
`TypeNode.__eq__` (full structural equality) after the hash probe, which is
what keying the list on `TypeNode` equality mirrors.
-/

structure NodeInfo where
  node : TypeNode
  npred : Nat
  succs : List TypeNode
deriving DecidableEq, Repr

/-- The keys of the sorter's node map, in insertion order. -/
def keysOf (g : List NodeInfo) : List TypeNode :=
  g.map (fun i => i.node)

/-- `TopologicalSorter._get_nodeinfo`: look up a node's info record,
inserting a fresh `_NodeInfo(node)` (zero predecessors, no successors) if
the node is not yet a key. -/
def ensureKey (g : List NodeInfo) (n : TypeNode) : List NodeInfo :=
  if n ∈ keysOf g then g else g ++ [⟨n, 0, []⟩]

/-- `nodeinfo.npredecessors += k` on the (unique) record keyed by `n`. -/
def bumpPred (g : List NodeInfo) (n : TypeNode) (k : Nat) : List NodeInfo :=
  g.map (fun i => if i.node = n then { i with npred := i.npred + k } else i)

/-- `pred_info.successors.append(node)` on the (unique) record keyed by `u`. -/
def pushSucc (g : List NodeInfo) (u target : TypeNode) : List NodeInfo :=
  g.map (fun i => if i.node = u then { i with succs := i.succs ++ [target] } else i)

/-- The loop body of `TopologicalSorter.add`: for each predecessor in order,
ensure its record exists and append `node` to its successor list. -/
def addPreds (g : List NodeInfo) (node : TypeNode) : List TypeNode → List NodeInfo
  | [] => g
  | p :: ps => addPreds (pushSucc (ensureKey g p) p node) node ps

/-- `TopologicalSorter.add(node, *predecessors)`: ensure `node`'s record,
bump its predecessor count by the number of predecessors passed, then record
`node` as a successor of each predecessor. -/
def graphAdd (g : List NodeInfo) (node : TypeNode) (preds : List TypeNode) :
    List NodeInfo :=
  addPreds (bumpPred (ensureKey g node) node preds.length) node preds

/-! ### The breadth-first builder `get_type_graph` -/

/-- The accumulator threaded through the `for var, child in _level(...)`
loop of `get_type_graph`: the predecessor list built so far, the visited set
of descriptors, and the nodes appended to the work queue. -/
structure BuildAcc where
  preds : List TypeNode
  visited : Finset Desc
  pushed : List TypeNode

/--
The body of the `for var, child in _level(parent.type)` loop of
`get_type_graph`.  A child with no type information is skipped.  A child
whose descriptor was already visited and which can be cyclic (subscripted
generic, or not a stdlib type) is replaced by a terminal placeholder node:
cyclic flag set, descriptor rebuilt as a forward reference; it is not
enqueued.  Any other child produces a normal node that is marked visited
and enqueued.  Either node is recorded as a predecessor of the parent.
-/
def processPair (env : TypeEnv) (acc : BuildAcc) (p : Option String × Desc) :
    BuildAcc :=
  let var := p.1
  let child := p.2
  if child = .anyTy then acc
  else
    let canBeCyclic := issubscriptedgeneric env child || !isstdlibtype env child
    if child ∈ acc.visited ∧ canBeCyclic = true then
      let node : TypeNode :=
        ⟨forwardref (get_qualname env child) var.isSome (get_module env child)
            (isclass env child), var, true⟩
      { acc with preds := acc.preds ++ [node] }
    else
      let node : TypeNode := ⟨child, var, false⟩
      { preds := acc.preds ++ [node]
        visited := insert child acc.visited
        pushed := acc.pushed ++ [node] }

/-- One level of the breadth-first traversal: process every
`(label, child)` pair of the parent's level in order. -/
def processLevel (env : TypeEnv) (visited : Finset Desc)
    (pairs : List (Option String × Desc)) : BuildAcc :=
  pairs.foldl (processPair env) ⟨[], visited, []⟩

/--
The `while stack:` loop of `get_type_graph`, with explicit fuel so the
function is total: each iteration pops the leftmost node of the deque,
processes its level, registers the node and its gathered predecessors in
the sorter, and appends the newly created non-cyclic children to the deque.
`none` means the fuel ran out before the queue drained (the termination
theorem shows enough fuel always exists).
-/
def buildLoop (env : TypeEnv) :
    Nat → List NodeInfo → List TypeNode → Finset Desc → Option (List NodeInfo)
  | 0, _, _, _ => none
  | fuel + 1, g, stack, visited =>
    match stack with
    | [] => some g
    | parent :: rest =>
      let acc := processLevel env visited (_level env parent.type)
      buildLoop env fuel (graphAdd g parent acc.preds) (rest ++ acc.pushed)
        acc.visited

/-- `get_type_graph(t)`: build the dependency graph with the root node on
the queue and the root descriptor pre-visited. -/
def get_type_graph (env : TypeEnv) (fuel : Nat) (t : Desc) :
    Option (List NodeInfo) :=
  buildLoop env fuel [] [⟨t, none, false⟩] {t}

/-! ### `TopologicalSorter.static_order`

`static_order` = `prepare` (collect the initially ready nodes, in dict
insertion order) followed by rounds of `get_ready` (emit the ready batch,
marking each emitted record `_NODE_OUT`) and `done` (mark each emitted
record `_NODE_DONE` and decrement every successor, collecting the ones that
reach zero as the next batch).  Only the `npredecessors` counters change
during the rounds, so the loop threads a counter valuation
`TypeNode → Int` over the fixed graph.  The `CycleError` pre-check of
`prepare` is not modelled: the builder only ever hands the sorter acyclic
graphs (proved below), on which the check is a no-op.
-/

/-- Successor list of the record keyed by `v` (empty if `v` is not a key). -/
def succsOf (g : List NodeInfo) (v : TypeNode) : List TypeNode :=
  match g with
  | [] => []
  | i :: rest => if i.node = v then i.succs else succsOf rest v

/-- Predecessor count of the record keyed by `v` (zero if `v` is no key). -/
def npredOf (g : List NodeInfo) (v : TypeNode) : Nat :=
  match g with
  | [] => 0
  | i :: rest => if i.node = v then i.npred else npredOf rest v

/-- The inner loop of `TopologicalSorter.done`: decrement each successor in
order, appending any successor whose count reaches zero to the ready
list. -/
def decList (cnt : TypeNode → Int) (ready : List TypeNode) :
    List TypeNode → (TypeNode → Int) × List TypeNode
  | [] => (cnt, ready)
  | v :: vs =>
    let c := cnt v - 1
    let cnt1 : TypeNode → Int := fun x => if x = v then c else cnt x
    decList cnt1 (if c = 0 then ready ++ [v] else ready) vs

/-- `TopologicalSorter.done(*batch)`: process each finished node in order —
mark its record `_NODE_DONE` and decrement its successors. -/
def doneList (g : List NodeInfo) :
    (TypeNode → Int) → List TypeNode → List TypeNode →
      (TypeNode → Int) × List TypeNode
  | cnt, ready, [] => (cnt, ready)
  | cnt, ready, n :: ns =>
    let cntD : TypeNode → Int := fun x => if x = n then -2 else cnt x
    let next := decList cntD ready (succsOf g n)
    doneList g next.1 next.2 ns

/-- The `while self.is_active(): ... get_ready ... done` loop of
`static_order`, with fuel (one unit per round; `g.length + 1` units
suffice, as proved below). -/
def sortLoop (g : List NodeInfo) :
    Nat → (TypeNode → Int) → List TypeNode → List TypeNode → List TypeNode
  | 0, _, _, acc => acc
  | fuel + 1, cnt, ready, acc =>
    match ready with
    | [] => acc
    | _ :: _ =>
      let cntOut : TypeNode → Int := fun x => if x ∈ ready then -1 else cnt x
      let next := doneList g cntOut [] ready
      sortLoop g fuel next.1 next.2 (acc ++ ready)

/-- `TopologicalSorter.static_order()` as a list: prepare the
initially-ready nodes (zero predecessors, in insertion order) and run the
rounds. -/
def staticOrder (g : List NodeInfo) : List TypeNode :=
  let cnt0 : TypeNode → Int := fun v => (npredOf g v : Int)
  let ready0 := (g.filter (fun i => decide (i.npred = 0))).map (fun i => i.node)
  sortLoop g (g.length + 1) cnt0 ready0 []

/-- `itertypes(t)`: build the graph for the root `t` and iterate it in
topological order (`none` only when the builder fuel is insufficient). -/
def itertypes (env : TypeEnv) (fuel : Nat) (t : Desc) :
    Option (List TypeNode) :=
  (get_type_graph env fuel t).map staticOrder

/-- The uncached body of the public entry point `static_order(t)` (for a
concrete, already-resolved descriptor): `[*itertypes(t)]`. -/
def static_order (env : TypeEnv) (fuel : Nat) (t : Desc) :
    Option (List TypeNode) :=
  itertypes env fuel t

/-- Lookup in the memoization cache, keyed on the root descriptor. -/
def cacheLookup : List (Desc × List TypeNode) → Desc → Option (List TypeNode)
  | [], _ => none
  | (k, v) :: rest, t => if k = t then some v else cacheLookup rest t

/--
Modelled from the spec: the `@compat.cache` decorator on `static_order`
(`compat` is not part of these sources; per the spec it is a process-wide,
unbounded, never-evicting memoization cache keyed on the argument).  The
result triple is (returned value, updated cache, whether the graph
construction work ran on this call).
-/
def static_order_cached (env : TypeEnv) (fuel : Nat)
    (cache : List (Desc × List TypeNode)) (t : Desc) :
    Option (List TypeNode) × List (Desc × List TypeNode) × Bool :=
  match cacheLookup cache t with
  | some r => (some r, cache, false)
  | none =>
    match static_order env fuel t with
    | some r => (some r, (t, r) :: cache, true)
    | none => (none, cache, true)

/-! ### Proof infrastructure: counting, indexing, edges, invariants -/

/-- Number of occurrences of `x` in a node list. -/
def occ (x : TypeNode) : List TypeNode → Nat
  | [] => 0
  | y :: l => (if y = x then 1 else 0) + occ x l

/-- Index of the first occurrence of `x` (length of the list if absent). -/
def idxOf (x : TypeNode) : List TypeNode → Nat
  | [] => 0
  | y :: l => if y = x then 0 else idxOf x l + 1

/-- Number of edge instances into `x` whose source record is not in `done`:
the running value of `x`'s `npredecessors` counter once every node of `done`
has been passed to `TopologicalSorter.done`. -/
def indeg (g : List NodeInfo) (done : List TypeNode) (x : TypeNode) : Nat :=
  match g with
  | [] => 0
  | i :: rest => (if i.node ∈ done then 0 else occ x i.succs) + indeg rest done x

/-- Total number of edge instances from the batch `ns` into `x`. -/
def batchOcc (g : List NodeInfo) (x : TypeNode) : List TypeNode → Nat
  | [] => 0
  | n :: ns => occ x (succsOf g n) + batchOcc g x ns

/-- A node the builder will never record incoming dependency edges for:
its descriptor's level is empty, or it is a cyclic placeholder (which is
never enqueued, hence never expanded). -/
def isTerminal (env : TypeEnv) (n : TypeNode) : Bool :=
  (_level env n.type).isEmpty || n.cyclic

/-- One dependency edge of the sorter state: some record keyed `u` lists `v`
among its successors, i.e. `graph.add(v, ..., u, ...)` was called — `u` is a
predecessor of `v` and must be emitted before it. -/
def EdgeStep (g : List NodeInfo) (u v : TypeNode) : Prop :=
  ∃ i, i ∈ g ∧ i.node = u ∧ v ∈ i.succs

/-- Reachability along dependency edges (from a node up through the parents
that depend on it). -/
def Reaches (g : List NodeInfo) (u v : TypeNode) : Prop :=
  Relation.ReflTransGen (EdgeStep g) u v

/-- Well-formedness of a sorter state produced by the builder: unique node
map keys, edges land on keys, the predecessor counters count the recorded
edges, and every edge either starts at a node that never receives incoming
edges (a terminal) or goes from a later-registered node to an
earlier-registered one (the acyclicity witness). -/
structure SorterWF (env : TypeEnv) (g : List NodeInfo) : Prop where
  nodupKeys : (keysOf g).Nodup
  closed : ∀ u v, EdgeStep g u v → v ∈ keysOf g
  consistent : ∀ v ∈ keysOf g, npredOf g v = indeg g [] v
  acy : ∀ u v, EdgeStep g u v →
    ((_level env v.type).isEmpty = false ∧ v.cyclic = false) ∧
      (isTerminal env u = true ∨ idxOf v (keysOf g) < idxOf u (keysOf g))

/-- What the builder guarantees about cyclic placeholder records: the
descriptor was rebuilt as a forward reference whose is-argument flag records
whether a field label was present, and the record never acquires incoming
dependency edges. -/
structure CyclicWF (g : List NodeInfo) : Prop where
  refForm : ∀ v ∈ keysOf g, v.cyclic = true →
    ∃ nm m c, v.type = Desc.ref nm v.var.isSome m c
  nopred : ∀ v ∈ keysOf g, v.cyclic = true → npredOf g v = 0

/-- The running invariant of the breadth-first build loop. -/
structure BuildInv (env : TypeEnv) (root : TypeNode) (g : List NodeInfo)
    (stack : List TypeNode) (visited : Finset Desc) : Prop where
  wf : SorterWF env g
  cyc : CyclicWF g
  vlink : ∀ v ∈ keysOf g, v.cyclic = false → v.type ∈ visited
  stackOK : ∀ n ∈ stack, n.cyclic = false ∧ n.type ∈ visited ∧
    (n ∈ keysOf g ∨ (n = root ∧ g = []))
  rootIn : g = [] ∨ root ∈ keysOf g
  reach : ∀ v ∈ keysOf g, Reaches g v root

/-- The invariant of the inner `for var, child in _level(parent.type)` fold,
relative to the visited set `visited0` at the start of the level. -/
structure AccOK (env : TypeEnv) (visited0 : Finset Desc) (acc : BuildAcc) :
    Prop where
  vsub : visited0 ⊆ acc.visited
  pushedOK : ∀ n ∈ acc.pushed,
    n.cyclic = false ∧ n.type ∈ acc.visited ∧ n ∈ acc.preds
  predsRef : ∀ n ∈ acc.preds, n.cyclic = true →
    ∃ nm m c, n.type = Desc.ref nm n.var.isSome m c
  predsPushed : ∀ n ∈ acc.preds, n.cyclic = false → n ∈ acc.pushed
  predsFresh : ∀ n ∈ acc.preds, isTerminal env n = false →
    n.type ∉ visited0 ∧ n.cyclic = false

/-- The running invariant of the `static_order` rounds: `acc` is what has
been emitted (oldest first), `ready` the current batch, `cnt` the counter
valuation. -/
structure SortInv (g : List NodeInfo) (cnt : TypeNode → Int)
    (ready acc : List TypeNode) : Prop where
  subKeys : ∀ v ∈ acc ++ ready, v ∈ keysOf g
  nodup : (acc ++ ready).Nodup
  emittedLe : ∀ v ∈ acc ++ ready, cnt v ≤ 0
  unem : ∀ v ∈ keysOf g, v ∉ acc ++ ready →
    cnt v = (indeg g acc v : Int) ∧ 1 ≤ cnt v
  readySrc : ∀ v ∈ ready, indeg g acc v = 0
  accSrc : ∀ v ∈ acc, ∀ u, EdgeStep g u v → u ∈ acc ∧ idxOf u acc < idxOf v acc

/-- The spec of the environment's stdlib classification, extracted from the
spec's type taxonomy: a type classified builtin/stdlib that is not
subscripted is a plain scalar, and plain scalar types yield an empty level
(no members). -/
def ScalarStdlib (env : TypeEnv) : Prop :=
  ∀ i : Nat, (env i).stdlib = true → (env i).args = [] → (env i).fields = []

/-- A finite universe of descriptors closed under one introspection level;
this is the (always true in Python) statement that the object graph of a
type annotation is finite. -/
def LevelClosed (env : TypeEnv) (univ : Finset Desc) : Prop :=
  ∀ d ∈ univ, ∀ p ∈ _level env d, p.2 ∈ univ

/-- The work a node still causes when popped: one pop plus one child per
level entry. -/
def nodeWeight (env : TypeEnv) (n : TypeNode) : Nat :=
  1 + (_level env n.type).length

/-- Total weight of the pending queue. -/
def stackWeight (env : TypeEnv) (stack : List TypeNode) : Nat :=
  (stack.map (nodeWeight env)).sum

/-- The queue weight that processing the pairs `l` can add. -/
def weightSum (env : TypeEnv) (l : List (Option String × Desc)) : Nat :=
  (l.map (fun p => 1 + (_level env p.2).length)).sum

/-- A uniform bound on `weightSum` of any level within the universe. -/
def levelBound (env : TypeEnv) (univ : Finset Desc) : Nat :=
  univ.sup (fun d => weightSum env (_level env d))

/-- The termination measure of the breadth-first build loop: fresh
descriptors still to visit (weighted by the largest possible queue-weight
gain) plus the pending queue weight. -/
def buildMeasure (env : TypeEnv) (univ visited : Finset Desc)
    (stack : List TypeNode) : Nat :=
  (univ.card - visited.card) * (levelBound env univ + 1) +
    stackWeight env stack

/-! ### Concrete environments used by the example scenarios -/

/-- A filler composite definition (a user-defined class with no members). -/
def defaultComp : CompDef :=
  ⟨"X", none, false, [], []⟩

/-- The spec's example scenario: `Pair { a: int, b: list[str] }`
(`comp 0` is `Pair`, `comp 1` is `list[str]`). -/
def pairEnv : TypeEnv := fun i =>
  match i with
  | 0 => ⟨"Pair", some "m", false, [], [("a", .prim "int"), ("b", .comp 1)]⟩
  | 1 => ⟨"list", some "builtins", true, [.prim "str"], []⟩
  | _ => defaultComp

/-- The spec's recursive example: `Node { value: int, next: Optional[Node] }`
(`comp 0` is `Node`, `comp 1` is `Optional[Node]`). -/
def recEnv : TypeEnv := fun i =>
  match i with
  | 0 => ⟨"Node", some "m", false, [], [("value", .prim "int"), ("next", .comp 1)]⟩
  | 1 => ⟨"Optional", some "typing", true, [.comp 0], []⟩
  | _ => defaultComp

/-- Sibling repetition with no recursion: `S { x: list[str], y: list[str] }`
(`comp 0` is `S`, `comp 1` is `list[str]`). -/
def sibEnv : TypeEnv := fun i =>
  match i with
  | 0 => ⟨"S", some "m", false, [], [("x", .comp 1), ("y", .comp 1)]⟩
  | 1 => ⟨"list", some "builtins", true, [.prim "str"], []⟩
  | _ => defaultComp

/-- Primitive repetition: `Pair2 { a: int, b: int }`. -/
def pair2Env : TypeEnv := fun i =>
  match i with
  | 0 => ⟨"Pair2", some "m", false, [], [("a", .prim "int"), ("b", .prim "int")]⟩
  | _ => defaultComp

/-- Direct self-reference: `A { cycle: A }`. -/
def selfEnv : TypeEnv := fun i =>
  match i with
  | 0 => ⟨"A", some "m", false, [], [("cycle", .comp 0)]⟩
  | _ => defaultComp

/-- Whether a descriptor is a plain (non-subscripted) builtin/stdlib
primitive type such as `int`, `str`, `datetime` or `UUID`. -/
def Desc.isPrim : Desc → Bool
  | .prim _ => true
  | _ => false

/-- The is-argument flag carried by a forward-reference descriptor
(`false` for any other descriptor). -/
def refIsArg : Desc → Bool
  | .ref _ a _ _ => a
  | _ => false

/-! ## Lemmas: counting and indexing -/

theorem occ_append (x : TypeNode) (l1 l2 : List TypeNode) :
    occ x (l1 ++ l2) = occ x l1 + occ x l2 := by
  induction l1 with
  | nil => simp [occ]
  | cons y l ih =>
    show (if y = x then 1 else 0) + occ x (l ++ l2) = _
    rw [ih]
    show _ = (if y = x then 1 else 0) + occ x l + occ x l2
    omega

theorem occ_eq_zero {x : TypeNode} {l : List TypeNode} :
    occ x l = 0 ↔ x ∉ l := by
  induction l with
  | nil => simp [occ]
  | cons y l ih =>
    by_cases h : y = x
    · subst h; simp [occ]
    · have hxy : ¬x = y := fun hc => h hc.symm
      simp [occ, h, ih, hxy]

theorem occ_pos {x : TypeNode} {l : List TypeNode} :
    0 < occ x l ↔ x ∈ l := by
  rw [Nat.pos_iff_ne_zero, ne_eq, occ_eq_zero, not_not]

theorem idxOf_append_left {x : TypeNode} {l1 : List TypeNode}
    (l2 : List TypeNode) (h : x ∈ l1) :
    idxOf x (l1 ++ l2) = idxOf x l1 := by
  induction l1 with
  | nil => cases h
  | cons y l ih =>
    by_cases hy : y = x
    · simp [idxOf, hy]
    · rcases List.mem_cons.mp h with h1 | h1
      · exact absurd h1.symm hy
      · simp [idxOf, hy, ih h1]

theorem idxOf_append_right {x : TypeNode} {l1 : List TypeNode}
    (l2 : List TypeNode) (h : x ∉ l1) :
    idxOf x (l1 ++ l2) = l1.length + idxOf x l2 := by
  induction l1 with
  | nil => simp
  | cons y l ih =>
    have hy : y ≠ x := fun hc => h (hc ▸ List.mem_cons_self y l)
    have hx : x ∉ l := fun hc => h (List.mem_cons_of_mem y hc)
    simp [idxOf, hy, ih hx]; omega

theorem idxOf_lt_length {x : TypeNode} {l : List TypeNode} (h : x ∈ l) :
    idxOf x l < l.length := by
  induction l with
  | nil => cases h
  | cons y l ih =>
    by_cases hy : y = x
    · simp [idxOf, hy]
    · rcases List.mem_cons.mp h with h1 | h1
      · exact absurd h1.symm hy
      · simp only [idxOf, hy, if_false, List.length_cons]
        exact Nat.succ_lt_succ (ih h1)

theorem idxOf_getLast {l : List TypeNode} {x : TypeNode} (hnd : l.Nodup)
    (hx : x ∈ l) (hmax : ∀ y ∈ l, y ≠ x → idxOf y l < idxOf x l) :
    l.getLast? = some x := by
  induction l with
  | nil => cases hx
  | cons y l ih =>
    cases l with
    | nil =>
      rcases List.mem_cons.mp hx with h1 | h1
      · simp [h1.symm]
      · cases h1
    | cons z l2 =>
      by_cases hy : y = x
      · subst hy
        have hz : z ≠ y := by
          intro hc; subst hc
          exact (List.nodup_cons.mp hnd).1 (List.mem_cons_self z l2)
        have h2 := hmax z (List.mem_cons_of_mem y (List.mem_cons_self z l2)) hz
        have e1 : idxOf y (y :: z :: l2) = 0 := by simp [idxOf]
        have e2 : idxOf z (y :: z :: l2) = 1 := by
          have : ¬y = z := fun hc => hz hc.symm
          simp [idxOf, this]
        rw [e1, e2] at h2
        exact absurd h2 (by omega)
      · have hx2 : x ∈ z :: l2 := by
          rcases List.mem_cons.mp hx with h1 | h1
          · exact absurd h1.symm hy
          · exact h1
        have hmax2 : ∀ w ∈ z :: l2, w ≠ x → idxOf w (z :: l2) < idxOf x (z :: l2) := by
          intro w hw hwx
          have hwy : ¬y = w := by
            intro hc; subst hc
            exact (List.nodup_cons.mp hnd).1 hw
          have h3 := hmax w (List.mem_cons_of_mem y hw) hwx
          have e1 : idxOf w (y :: z :: l2) = idxOf w (z :: l2) + 1 := by
            simp [idxOf, hwy]
          have e2 : idxOf x (y :: z :: l2) = idxOf x (z :: l2) + 1 := by
            simp [idxOf, hy]
          rw [e1, e2] at h3
          omega
        rw [List.getLast?_cons_cons]
        exact ih (List.nodup_cons.mp hnd).2 hx2 hmax2

/-! ## Lemmas: `succsOf`, `npredOf`, `indeg` -/

theorem succsOf_eq_nil {g : List NodeInfo} {n : TypeNode}
    (h : n ∉ keysOf g) : succsOf g n = [] := by
  induction g with
  | nil => rfl
  | cons i rest ih =>
    have h1 : i.node ≠ n := by
      intro hc; exact h (by simp [keysOf, hc])
    have h2 : n ∉ keysOf rest := by
      intro hc; exact h (by simp [keysOf] at hc ⊢; right; exact hc)
    simp [succsOf, h1, ih h2]

theorem succsOf_of_mem {g : List NodeInfo} {i : NodeInfo}
    (hnd : (keysOf g).Nodup) (hi : i ∈ g) : succsOf g i.node = i.succs := by
  induction g with
  | nil => cases hi
  | cons j rest ih =>
    rcases List.mem_cons.mp hi with h1 | h1
    · subst h1; simp [succsOf]
    · have hne : j.node ≠ i.node := by
        intro hc
        have : i.node ∈ keysOf rest := List.mem_map.mpr ⟨i, h1, rfl⟩
        rw [keysOf, List.map_cons, List.nodup_cons] at hnd
        exact hnd.1 (hc ▸ this)
      have hnd2 : (keysOf rest).Nodup := by
        rw [keysOf, List.map_cons, List.nodup_cons] at hnd
        exact hnd.2
      simp [succsOf, hne, ih hnd2 h1]

theorem npredOf_of_mem {g : List NodeInfo} {i : NodeInfo}
    (hnd : (keysOf g).Nodup) (hi : i ∈ g) : npredOf g i.node = i.npred := by
  induction g with
  | nil => cases hi
  | cons j rest ih =>
    rcases List.mem_cons.mp hi with h1 | h1
    · subst h1; simp [npredOf]
    · have hne : j.node ≠ i.node := by
        intro hc
        have : i.node ∈ keysOf rest := List.mem_map.mpr ⟨i, h1, rfl⟩
        rw [keysOf, List.map_cons, List.nodup_cons] at hnd
        exact hnd.1 (hc ▸ this)
      have hnd2 : (keysOf rest).Nodup := by
        rw [keysOf, List.map_cons, List.nodup_cons] at hnd
        exact hnd.2
      simp [npredOf, hne, ih hnd2 h1]

theorem indeg_done_irrelevant {g : List NodeInfo} {n : TypeNode}
    (done : List TypeNode) (x : TypeNode) (h : n ∉ keysOf g) :
    indeg g (done ++ [n]) x = indeg g done x := by
  induction g with
  | nil => rfl
  | cons i rest ih =>
    have h1 : i.node ≠ n := fun hc => h (by simp [keysOf, hc])
    have h2 : n ∉ keysOf rest := by
      intro hc; exact h (by simp [keysOf] at hc ⊢; right; exact hc)
    have hmem : (i.node ∈ done ++ [n]) = (i.node ∈ done) := by
      simp [List.mem_append, h1]
    simp only [indeg, ih h2, hmem]

theorem indeg_push_done {g : List NodeInfo} {n : TypeNode}
    {done : List TypeNode} (x : TypeNode) (hnd : (keysOf g).Nodup)
    (hn : n ∉ done) :
    indeg g done x = indeg g (done ++ [n]) x + occ x (succsOf g n) := by
  induction g with
  | nil => simp [indeg, succsOf, occ]
  | cons i rest ih =>
    rw [keysOf, List.map_cons, List.nodup_cons] at hnd
    by_cases he : i.node = n
    · have hrest : n ∉ keysOf rest := he ▸ hnd.1
      have hd1 : (i.node ∈ done) = False := by
        rw [he]; exact eq_false hn
      have hd2 : (i.node ∈ done ++ [n]) = True := by
        rw [he]; exact eq_true (by simp)
      have hs : succsOf (i :: rest) n = i.succs := by simp [succsOf, he]
      rw [hs]
      simp only [indeg, hd1, hd2, ite_true, ite_false,
        indeg_done_irrelevant done x hrest]
      omega
    · have hmem : (i.node ∈ done ++ [n]) = (i.node ∈ done) := by
        simp [List.mem_append, he]
      have hs : succsOf (i :: rest) n = succsOf rest n := by simp [succsOf, he]
      rw [hs]
      have h4 := ih hnd.2
      simp only [indeg, hmem]
      omega

theorem indeg_batch {g : List NodeInfo} {done ns : List TypeNode}
    (x : TypeNode) (hnd : (keysOf g).Nodup) (hb : ns.Nodup)
    (hdisj : ∀ n ∈ ns, n ∉ done) :
    indeg g done x = indeg g (done ++ ns) x + batchOcc g x ns := by
  induction ns generalizing done with
  | nil => simp [batchOcc]
  | cons n ns ih =>
    have h1 : n ∉ done := hdisj n (List.mem_cons_self n ns)
    have hb2 : ns.Nodup := (List.nodup_cons.mp hb).2
    have hdisj2 : ∀ m ∈ ns, m ∉ done ++ [n] := by
      intro m hm
      simp only [List.mem_append, List.mem_singleton]
      push_neg
      exact ⟨hdisj m (List.mem_cons_of_mem n hm),
        fun hc => (List.nodup_cons.mp hb).1 (hc ▸ hm)⟩
    have e1 := indeg_push_done x hnd h1
    have e2 := ih hb2 hdisj2
    have e3 : done ++ [n] ++ ns = done ++ n :: ns := by simp
    rw [e3] at e2
    simp only [batchOcc]
    omega

theorem indeg_zero_iff {g : List NodeInfo} {done : List TypeNode}
    {x : TypeNode} :
    indeg g done x = 0 ↔ ∀ i ∈ g, i.node ∉ done → x ∉ i.succs := by
  induction g with
  | nil => simp [indeg]
  | cons i rest ih =>
    simp only [indeg, Nat.add_eq_zero, List.mem_cons]
    constructor
    · rintro ⟨h1, h2⟩ j hj hd
      rcases hj with hj | hj
      · subst hj
        by_cases hc : j.node ∈ done
        · exact absurd hc hd
        · simp only [hc, if_false] at h1
          exact occ_eq_zero.mp h1
      · exact ih.mp h2 j hj hd
    · intro h
      refine ⟨?_, ih.mpr fun j hj hd => h j (Or.inr hj) hd⟩
      by_cases hc : i.node ∈ done
      · simp [hc]
      · simp only [hc, if_false]
        exact occ_eq_zero.mpr (h i (Or.inl rfl) hc)

theorem indeg_pos_of_edge {g : List NodeInfo} {done : List TypeNode}
    {u v : TypeNode} (h : EdgeStep g u v) (hu : u ∉ done) :
    0 < indeg g done v := by
  rcases h with ⟨i, hi, hnode, hv⟩
  by_contra hc
  push_neg at hc
  have h0 : indeg g done v = 0 := Nat.le_zero.mp hc
  exact (indeg_zero_iff.mp h0 i hi (hnode ▸ hu)) hv

theorem edge_done_of_indeg_zero {g : List NodeInfo} {done : List TypeNode}
    {v : TypeNode} (h : indeg g done v = 0) :
    ∀ u, EdgeStep g u v → u ∈ done := by
  intro u hu
  by_contra hc
  exact absurd h (Nat.pos_iff_ne_zero.mp (indeg_pos_of_edge hu hc))

/-! ## Lemmas: the sorter map primitives -/

theorem mem_keysOf {g : List NodeInfo} {v : TypeNode} :
    v ∈ keysOf g ↔ ∃ i, i ∈ g ∧ i.node = v := by
  simp [keysOf, List.mem_map]

theorem keysOf_append (g1 g2 : List NodeInfo) :
    keysOf (g1 ++ g2) = keysOf g1 ++ keysOf g2 := by
  simp [keysOf]


theorem keysOf_cons (i : NodeInfo) (rest : List NodeInfo) :
    keysOf (i :: rest) = i.node :: keysOf rest := rfl

theorem succsOf_cons (i : NodeInfo) (rest : List NodeInfo) (v : TypeNode) :
    succsOf (i :: rest) v = if i.node = v then i.succs else succsOf rest v := rfl

theorem npredOf_cons (i : NodeInfo) (rest : List NodeInfo) (v : TypeNode) :
    npredOf (i :: rest) v = if i.node = v then i.npred else npredOf rest v := rfl

theorem indeg_cons (i : NodeInfo) (rest : List NodeInfo)
    (done : List TypeNode) (x : TypeNode) :
    indeg (i :: rest) done x =
      (if i.node ∈ done then 0 else occ x i.succs) + indeg rest done x := rfl

theorem mem_keysOf_of_cons {i : NodeInfo} {rest : List NodeInfo} {v : TypeNode}
    (h : v ∈ keysOf (i :: rest)) (hne : i.node ≠ v) : v ∈ keysOf rest := by
  rw [keysOf_cons] at h
  rcases List.mem_cons.mp h with h1 | h1
  · exact absurd h1.symm hne
  · exact h1

theorem npredOf_eq_zero_of_not_mem {g : List NodeInfo} {v : TypeNode}
    (h : v ∉ keysOf g) : npredOf g v = 0 := by
  induction g with
  | nil => rfl
  | cons i rest ih =>
    have h1 : i.node ≠ v := fun hc => h (by rw [keysOf_cons, hc]; exact List.mem_cons_self v _)
    have h2 : v ∉ keysOf rest :=
      fun hc => h (by rw [keysOf_cons]; exact List.mem_cons_of_mem _ hc)
    rw [npredOf_cons, if_neg h1, ih h2]

theorem succsOf_append_single (g : List NodeInfo) (j : NodeInfo)
    (v : TypeNode) :
    succsOf (g ++ [j]) v =
      if v ∈ keysOf g then succsOf g v
      else if j.node = v then j.succs else [] := by
  induction g with
  | nil => simp [succsOf, keysOf]
  | cons i rest ih =>
    rw [List.cons_append, succsOf_cons]
    by_cases h : i.node = v
    · have hv : v ∈ keysOf (i :: rest) := by
        rw [keysOf_cons, h]; exact List.mem_cons_self v _
      rw [if_pos h, if_pos hv, succsOf_cons, if_pos h]
    · have hv : (v ∈ keysOf (i :: rest)) ↔ (v ∈ keysOf rest) := by
        rw [keysOf_cons, List.mem_cons]
        exact ⟨fun hc => hc.elim (fun e => absurd e.symm h) id, Or.inr⟩
      rw [if_neg h, ih]
      by_cases hvr : v ∈ keysOf rest
      · rw [if_pos hvr, if_pos (hv.mpr hvr), succsOf_cons, if_neg h]
      · rw [if_neg hvr, if_neg (fun hc => hvr (hv.mp hc))]

theorem npredOf_append_single (g : List NodeInfo) (j : NodeInfo)
    (v : TypeNode) :
    npredOf (g ++ [j]) v =
      if v ∈ keysOf g then npredOf g v
      else if j.node = v then j.npred else 0 := by
  induction g with
  | nil => simp [npredOf, keysOf]
  | cons i rest ih =>
    rw [List.cons_append, npredOf_cons]
    by_cases h : i.node = v
    · have hv : v ∈ keysOf (i :: rest) := by
        rw [keysOf_cons, h]; exact List.mem_cons_self v _
      rw [if_pos h, if_pos hv, npredOf_cons, if_pos h]
    · have hv : (v ∈ keysOf (i :: rest)) ↔ (v ∈ keysOf rest) := by
        rw [keysOf_cons, List.mem_cons]
        exact ⟨fun hc => hc.elim (fun e => absurd e.symm h) id, Or.inr⟩
      rw [if_neg h, ih]
      by_cases hvr : v ∈ keysOf rest
      · rw [if_pos hvr, if_pos (hv.mpr hvr), npredOf_cons, if_neg h]
      · rw [if_neg hvr, if_neg (fun hc => hvr (hv.mp hc))]

theorem indeg_append_single (g : List NodeInfo) (j : NodeInfo)
    (done : List TypeNode) (x : TypeNode) :
    indeg (g ++ [j]) done x =
      indeg g done x + (if j.node ∈ done then 0 else occ x j.succs) := by
  induction g with
  | nil => simp [indeg]
  | cons i rest ih =>
    rw [List.cons_append, indeg_cons, ih, indeg_cons]
    omega

theorem keysOf_ensureKey (g : List NodeInfo) (n : TypeNode) :
    keysOf (ensureKey g n) =
      if n ∈ keysOf g then keysOf g else keysOf g ++ [n] := by
  unfold ensureKey
  by_cases h : n ∈ keysOf g
  · rw [if_pos h, if_pos h]
  · rw [if_neg h, if_neg h, keysOf_append]
    rfl

theorem nodup_ensureKey {g : List NodeInfo} (n : TypeNode)
    (hnd : (keysOf g).Nodup) : (keysOf (ensureKey g n)).Nodup := by
  rw [keysOf_ensureKey]
  by_cases h : n ∈ keysOf g
  · rw [if_pos h]; exact hnd
  · rw [if_neg h]
    simp [List.nodup_append, hnd, h]

theorem succsOf_ensureKey (g : List NodeInfo) (n v : TypeNode) :
    succsOf (ensureKey g n) v = succsOf g v := by
  unfold ensureKey
  by_cases h : n ∈ keysOf g
  · rw [if_pos h]
  · rw [if_neg h, succsOf_append_single]
    by_cases hv : v ∈ keysOf g
    · rw [if_pos hv]
    · rw [if_neg hv, succsOf_eq_nil hv]
      split <;> rfl

theorem npredOf_ensureKey (g : List NodeInfo) (n v : TypeNode) :
    npredOf (ensureKey g n) v = npredOf g v := by
  unfold ensureKey
  by_cases h : n ∈ keysOf g
  · rw [if_pos h]
  · rw [if_neg h, npredOf_append_single]
    by_cases hv : v ∈ keysOf g
    · rw [if_pos hv]
    · rw [if_neg hv, npredOf_eq_zero_of_not_mem hv]
      split <;> rfl

theorem indeg_ensureKey (g : List NodeInfo) (n : TypeNode)
    (done : List TypeNode) (x : TypeNode) :
    indeg (ensureKey g n) done x = indeg g done x := by
  unfold ensureKey
  by_cases h : n ∈ keysOf g
  · rw [if_pos h]
  · rw [if_neg h, indeg_append_single]
    have h0 : occ x ((⟨n, 0, []⟩ : NodeInfo).succs) = 0 := rfl
    split <;> omega

theorem mem_keysOf_ensureKey {g : List NodeInfo} {n v : TypeNode} :
    v ∈ keysOf (ensureKey g n) ↔ v ∈ keysOf g ∨ v = n := by
  rw [keysOf_ensureKey]
  by_cases h : n ∈ keysOf g
  · rw [if_pos h]
    exact ⟨Or.inl, fun hv => hv.elim id (fun e => e ▸ h)⟩
  · rw [if_neg h]
    simp [List.mem_append]

theorem bumpPred_cons (i : NodeInfo) (rest : List NodeInfo) (n : TypeNode)
    (k : Nat) :
    bumpPred (i :: rest) n k =
      (if i.node = n then { i with npred := i.npred + k } else i) ::
        bumpPred rest n k := rfl

theorem pushSucc_cons (i : NodeInfo) (rest : List NodeInfo) (u t : TypeNode) :
    pushSucc (i :: rest) u t =
      (if i.node = u then { i with succs := i.succs ++ [t] } else i) ::
        pushSucc rest u t := rfl

theorem bump_entry_node (i : NodeInfo) (n : TypeNode) (k : Nat) :
    (if i.node = n then ({ i with npred := i.npred + k } : NodeInfo) else i).node
      = i.node := by
  by_cases h : i.node = n
  · rw [if_pos h]
  · rw [if_neg h]

theorem bump_entry_succs (i : NodeInfo) (n : TypeNode) (k : Nat) :
    (if i.node = n then ({ i with npred := i.npred + k } : NodeInfo) else i).succs
      = i.succs := by
  by_cases h : i.node = n
  · rw [if_pos h]
  · rw [if_neg h]

theorem push_entry_node (i : NodeInfo) (u t : TypeNode) :
    (if i.node = u then ({ i with succs := i.succs ++ [t] } : NodeInfo) else i).node
      = i.node := by
  by_cases h : i.node = u
  · rw [if_pos h]
  · rw [if_neg h]

theorem push_entry_npred (i : NodeInfo) (u t : TypeNode) :
    (if i.node = u then ({ i with succs := i.succs ++ [t] } : NodeInfo) else i).npred
      = i.npred := by
  by_cases h : i.node = u
  · rw [if_pos h]
  · rw [if_neg h]

theorem keysOf_bumpPred (g : List NodeInfo) (n : TypeNode) (k : Nat) :
    keysOf (bumpPred g n k) = keysOf g := by
  induction g with
  | nil => rfl
  | cons i rest ih =>
    rw [bumpPred_cons, keysOf_cons, keysOf_cons, bump_entry_node, ih]

theorem succsOf_bumpPred (g : List NodeInfo) (n : TypeNode) (k : Nat)
    (v : TypeNode) : succsOf (bumpPred g n k) v = succsOf g v := by
  induction g with
  | nil => rfl
  | cons i rest ih =>
    rw [bumpPred_cons, succsOf_cons, succsOf_cons, bump_entry_node,
      bump_entry_succs, ih]

theorem indeg_bumpPred (g : List NodeInfo) (n : TypeNode) (k : Nat)
    (done : List TypeNode) (x : TypeNode) :
    indeg (bumpPred g n k) done x = indeg g done x := by
  induction g with
  | nil => rfl
  | cons i rest ih =>
    rw [bumpPred_cons, indeg_cons, indeg_cons, bump_entry_node,
      bump_entry_succs, ih]

theorem npredOf_bumpPred_ne (g : List NodeInfo) {n v : TypeNode} (k : Nat)
    (hvn : v ≠ n) : npredOf (bumpPred g n k) v = npredOf g v := by
  induction g with
  | nil => rfl
  | cons i rest ih =>
    rw [bumpPred_cons, npredOf_cons, npredOf_cons, bump_entry_node, ih]
    by_cases hv : i.node = v
    · rw [if_pos hv, if_pos hv, if_neg (fun hc => hvn (hv.symm.trans hc))]
    · rw [if_neg hv, if_neg hv]

theorem npredOf_bumpPred_self {g : List NodeInfo} {n : TypeNode} (k : Nat)
    (hn : n ∈ keysOf g) :
    npredOf (bumpPred g n k) n = npredOf g n + k := by
  induction g with
  | nil => cases hn
  | cons i rest ih =>
    rw [bumpPred_cons, npredOf_cons, npredOf_cons, bump_entry_node]
    by_cases h : i.node = n
    · rw [if_pos h, if_pos h, if_pos h]
    · rw [if_neg h, if_neg h, ih (mem_keysOf_of_cons hn h)]

theorem pushSucc_not_mem {g : List NodeInfo} {u : TypeNode} (t : TypeNode)
    (hu : u ∉ keysOf g) : pushSucc g u t = g := by
  induction g with
  | nil => rfl
  | cons i rest ih =>
    have h1 : i.node ≠ u := fun hc =>
      hu (by rw [keysOf_cons, hc]; exact List.mem_cons_self u _)
    have h2 : u ∉ keysOf rest :=
      fun hc => hu (by rw [keysOf_cons]; exact List.mem_cons_of_mem _ hc)
    rw [pushSucc_cons, if_neg h1, ih h2]

theorem keysOf_pushSucc (g : List NodeInfo) (u t : TypeNode) :
    keysOf (pushSucc g u t) = keysOf g := by
  induction g with
  | nil => rfl
  | cons i rest ih =>
    rw [pushSucc_cons, keysOf_cons, keysOf_cons, push_entry_node, ih]

theorem npredOf_pushSucc (g : List NodeInfo) (u t v : TypeNode) :
    npredOf (pushSucc g u t) v = npredOf g v := by
  induction g with
  | nil => rfl
  | cons i rest ih =>
    rw [pushSucc_cons, npredOf_cons, npredOf_cons, push_entry_node,
      push_entry_npred, ih]

theorem succsOf_pushSucc_ne (g : List NodeInfo) {u v : TypeNode}
    (t : TypeNode) (hvu : v ≠ u) :
    succsOf (pushSucc g u t) v = succsOf g v := by
  induction g with
  | nil => rfl
  | cons i rest ih =>
    rw [pushSucc_cons, succsOf_cons, succsOf_cons, push_entry_node, ih]
    by_cases hv : i.node = v
    · rw [if_pos hv, if_pos hv, if_neg (fun hc => hvu (hv.symm.trans hc))]
    · rw [if_neg hv, if_neg hv]

theorem succsOf_pushSucc_self {g : List NodeInfo} {u : TypeNode}
    (t : TypeNode) (hnd : (keysOf g).Nodup) (hu : u ∈ keysOf g) :
    succsOf (pushSucc g u t) u = succsOf g u ++ [t] := by
  induction g with
  | nil => cases hu
  | cons i rest ih =>
    have hnd2 : (keysOf rest).Nodup := by
      rw [keysOf_cons, List.nodup_cons] at hnd; exact hnd.2
    rw [pushSucc_cons, succsOf_cons, succsOf_cons, push_entry_node]
    by_cases h : i.node = u
    · rw [if_pos h, if_pos h, if_pos h]
    · rw [if_neg h, if_neg h, ih hnd2 (mem_keysOf_of_cons hu h)]

theorem indeg_pushSucc_nil {g : List NodeInfo} {u : TypeNode} (t x : TypeNode)
    (hnd : (keysOf g).Nodup) (hu : u ∈ keysOf g) :
    indeg (pushSucc g u t) [] x =
      indeg g [] x + (if t = x then 1 else 0) := by
  induction g with
  | nil => cases hu
  | cons i rest ih =>
    have hnd2 : (keysOf rest).Nodup := by
      rw [keysOf_cons, List.nodup_cons] at hnd; exact hnd.2
    rw [pushSucc_cons, indeg_cons, indeg_cons]
    by_cases h : i.node = u
    · have hrest : u ∉ keysOf rest := by
        rw [keysOf_cons, List.nodup_cons] at hnd; exact h ▸ hnd.1
      rw [if_pos h, pushSucc_not_mem t hrest]
      simp only [List.not_mem_nil, ite_false, if_false, occ_append]
      have ho : occ x [t] = if t = x then 1 else 0 := by simp [occ]
      rw [ho]
      omega
    · rw [if_neg h, ih hnd2 (mem_keysOf_of_cons hu h)]
      omega

/-! ## Lemmas: `addPreds` and `graphAdd` -/

theorem mem_ensureKey_self (g : List NodeInfo) (n : TypeNode) :
    n ∈ keysOf (ensureKey g n) :=
  mem_keysOf_ensureKey.mpr (Or.inr rfl)

theorem keysOf_addPreds_front (g : List NodeInfo) (n : TypeNode)
    (ps : List TypeNode) : keysOf g <+: keysOf (addPreds g n ps) := by
  induction ps generalizing g with
  | nil => exact List.prefix_refl _
  | cons p ps ih =>
    show keysOf g <+: keysOf (addPreds (pushSucc (ensureKey g p) p n) n ps)
    refine List.IsPrefix.trans ?_ (ih _)
    rw [keysOf_pushSucc, keysOf_ensureKey]
    by_cases h : p ∈ keysOf g
    · rw [if_pos h]
    · rw [if_neg h]; exact List.prefix_append _ _

theorem nodup_addPreds {g : List NodeInfo} (n : TypeNode)
    (ps : List TypeNode) (hnd : (keysOf g).Nodup) :
    (keysOf (addPreds g n ps)).Nodup := by
  induction ps generalizing g with
  | nil => exact hnd
  | cons p ps ih =>
    show (keysOf (addPreds (pushSucc (ensureKey g p) p n) n ps)).Nodup
    refine ih ?_
    rw [keysOf_pushSucc]
    exact nodup_ensureKey p hnd

theorem mem_keysOf_addPreds {g : List NodeInfo} {n v : TypeNode}
    {ps : List TypeNode} :
    v ∈ keysOf (addPreds g n ps) ↔ v ∈ keysOf g ∨ v ∈ ps := by
  induction ps generalizing g with
  | nil => simp [addPreds]
  | cons p ps ih =>
    show v ∈ keysOf (addPreds (pushSucc (ensureKey g p) p n) n ps) ↔ _
    rw [ih, keysOf_pushSucc, mem_keysOf_ensureKey, List.mem_cons]
    tauto

theorem npredOf_addPreds (g : List NodeInfo) (n v : TypeNode)
    (ps : List TypeNode) : npredOf (addPreds g n ps) v = npredOf g v := by
  induction ps generalizing g with
  | nil => rfl
  | cons p ps ih =>
    show npredOf (addPreds (pushSucc (ensureKey g p) p n) n ps) v = _
    rw [ih, npredOf_pushSucc, npredOf_ensureKey]

theorem succsOf_addPreds {g : List NodeInfo} (n v : TypeNode)
    (ps : List TypeNode) (hnd : (keysOf g).Nodup) :
    succsOf (addPreds g n ps) v =
      succsOf g v ++ List.replicate (occ v ps) n := by
  induction ps generalizing g with
  | nil => simp [addPreds, occ]
  | cons p ps ih =>
    have hnd1 : (keysOf (pushSucc (ensureKey g p) p n)).Nodup := by
      rw [keysOf_pushSucc]; exact nodup_ensureKey p hnd
    show succsOf (addPreds (pushSucc (ensureKey g p) p n) n ps) v = _
    rw [ih hnd1]
    by_cases h : p = v
    · subst h
      rw [succsOf_pushSucc_self n (nodup_ensureKey p hnd) (mem_ensureKey_self g p),
        succsOf_ensureKey]
      show succsOf g p ++ [n] ++ List.replicate (occ p ps) n = _
      have : occ p (p :: ps) = occ p ps + 1 := by
        show (if p = p then 1 else 0) + occ p ps = _
        rw [if_pos rfl]; omega
      rw [this, List.replicate_succ, List.append_assoc]
      rfl
    · rw [succsOf_pushSucc_ne _ n (fun hc => h hc.symm), succsOf_ensureKey]
      have : occ v (p :: ps) = occ v ps := by
        show (if p = v then 1 else 0) + occ v ps = _
        rw [if_neg h]; omega
      rw [this]

theorem indeg_addPreds_nil {g : List NodeInfo} (n : TypeNode) (x : TypeNode)
    (ps : List TypeNode) (hnd : (keysOf g).Nodup) :
    indeg (addPreds g n ps) [] x =
      indeg g [] x + (if n = x then ps.length else 0) := by
  induction ps generalizing g with
  | nil => simp [addPreds]
  | cons p ps ih =>
    have hnd1 : (keysOf (pushSucc (ensureKey g p) p n)).Nodup := by
      rw [keysOf_pushSucc]; exact nodup_ensureKey p hnd
    show indeg (addPreds (pushSucc (ensureKey g p) p n) n ps) [] x = _
    rw [ih hnd1,
      indeg_pushSucc_nil n x (nodup_ensureKey p hnd) (mem_ensureKey_self g p),
      indeg_ensureKey]
    by_cases h : n = x
    · rw [if_pos h, if_pos h, if_pos h]
      show _ = indeg g [] x + (ps.length + 1)
      omega
    · rw [if_neg h, if_neg h, if_neg h]

theorem keysOf_graphAdd_node_first (g : List NodeInfo) (n : TypeNode)
    (ps : List TypeNode) :
    keysOf (bumpPred (ensureKey g n) n ps.length) <+:
      keysOf (graphAdd g n ps) := by
  unfold graphAdd
  exact keysOf_addPreds_front _ n ps

theorem keysOf_graphAdd_front (g : List NodeInfo) (n : TypeNode)
    (ps : List TypeNode) : keysOf g <+: keysOf (graphAdd g n ps) := by
  refine List.IsPrefix.trans ?_ (keysOf_graphAdd_node_first g n ps)
  rw [keysOf_bumpPred, keysOf_ensureKey]
  by_cases h : n ∈ keysOf g
  · rw [if_pos h]
  · rw [if_neg h]; exact List.prefix_append _ _

theorem nodup_graphAdd {g : List NodeInfo} (n : TypeNode)
    (ps : List TypeNode) (hnd : (keysOf g).Nodup) :
    (keysOf (graphAdd g n ps)).Nodup := by
  unfold graphAdd
  refine nodup_addPreds n ps ?_
  rw [keysOf_bumpPred]
  exact nodup_ensureKey n hnd

theorem mem_keysOf_graphAdd {g : List NodeInfo} {n v : TypeNode}
    {ps : List TypeNode} :
    v ∈ keysOf (graphAdd g n ps) ↔ v ∈ keysOf g ∨ v = n ∨ v ∈ ps := by
  unfold graphAdd
  rw [mem_keysOf_addPreds, keysOf_bumpPred, mem_keysOf_ensureKey]
  tauto

theorem succsOf_graphAdd {g : List NodeInfo} (n v : TypeNode)
    (ps : List TypeNode) (hnd : (keysOf g).Nodup) :
    succsOf (graphAdd g n ps) v =
      succsOf g v ++ List.replicate (occ v ps) n := by
  unfold graphAdd
  have hnd1 : (keysOf (bumpPred (ensureKey g n) n ps.length)).Nodup := by
    rw [keysOf_bumpPred]; exact nodup_ensureKey n hnd
  rw [succsOf_addPreds n v ps hnd1, succsOf_bumpPred, succsOf_ensureKey]

theorem npredOf_graphAdd {g : List NodeInfo} (n v : TypeNode)
    (ps : List TypeNode) :
    npredOf (graphAdd g n ps) v =
      npredOf g v + (if v = n then ps.length else 0) := by
  unfold graphAdd
  rw [npredOf_addPreds]
  by_cases h : v = n
  · subst h
    rw [npredOf_bumpPred_self ps.length (mem_ensureKey_self g v),
      npredOf_ensureKey, if_pos rfl]
  · rw [npredOf_bumpPred_ne _ ps.length h, npredOf_ensureKey, if_neg h]
    omega

theorem indeg_graphAdd_nil {g : List NodeInfo} (n : TypeNode) (x : TypeNode)
    (ps : List TypeNode) (hnd : (keysOf g).Nodup) :
    indeg (graphAdd g n ps) [] x =
      indeg g [] x + (if x = n then ps.length else 0) := by
  unfold graphAdd
  have hnd1 : (keysOf (bumpPred (ensureKey g n) n ps.length)).Nodup := by
    rw [keysOf_bumpPred]; exact nodup_ensureKey n hnd
  rw [indeg_addPreds_nil n x ps hnd1, indeg_bumpPred, indeg_ensureKey]
  by_cases h : n = x
  · rw [if_pos h, if_pos h.symm]
  · rw [if_neg h, if_neg (fun hc => h hc.symm)]

theorem edgeStep_iff_succsOf {g : List NodeInfo} {u v : TypeNode}
    (hnd : (keysOf g).Nodup) : EdgeStep g u v ↔ v ∈ succsOf g u := by
  constructor
  · rintro ⟨i, hi, hn, hv⟩
    rw [← hn, succsOf_of_mem hnd hi]
    exact hv
  · intro hv
    by_cases hu : u ∈ keysOf g
    · rcases mem_keysOf.mp hu with ⟨i, hi, hin⟩
      refine ⟨i, hi, hin, ?_⟩
      rw [← hin, succsOf_of_mem hnd hi] at hv
      exact hv
    · rw [succsOf_eq_nil hu] at hv
      cases hv

theorem edgeStep_graphAdd {g : List NodeInfo} {n u v : TypeNode}
    {ps : List TypeNode} (hnd : (keysOf g).Nodup) :
    EdgeStep (graphAdd g n ps) u v ↔ EdgeStep g u v ∨ (u ∈ ps ∧ v = n) := by
  rw [edgeStep_iff_succsOf (nodup_graphAdd n ps hnd),
    edgeStep_iff_succsOf hnd, succsOf_graphAdd n u ps hnd, List.mem_append,
    List.mem_replicate]
  constructor
  · rintro (h | ⟨hocc, hv⟩)
    · exact Or.inl h
    · exact Or.inr ⟨occ_pos.mp (Nat.pos_iff_ne_zero.mpr hocc), hv⟩
  · rintro (h | ⟨hu, hv⟩)
    · exact Or.inl h
    · exact Or.inr ⟨Nat.pos_iff_ne_zero.mp (occ_pos.mpr hu), hv⟩

theorem idxOf_graphAdd_old {g : List NodeInfo} {v : TypeNode} (n : TypeNode)
    (ps : List TypeNode) (hv : v ∈ keysOf g) :
    idxOf v (keysOf (graphAdd g n ps)) = idxOf v (keysOf g) := by
  rcases keysOf_graphAdd_front g n ps with ⟨tl, htl⟩
  rw [← htl, idxOf_append_left tl hv]

theorem idxOf_graphAdd_parent_lt {g : List NodeInfo} {n p : TypeNode}
    {ps : List TypeNode} (hp1 : p ∉ keysOf g) (hp2 : p ≠ n) :
    idxOf n (keysOf (graphAdd g n ps)) < idxOf p (keysOf (graphAdd g n ps)) := by
  rcases keysOf_graphAdd_node_first g n ps with ⟨tl, htl⟩
  rw [keysOf_bumpPred, keysOf_ensureKey] at htl
  by_cases h : n ∈ keysOf g
  · rw [if_pos h] at htl
    rw [← htl, idxOf_append_left tl h, idxOf_append_right tl hp1]
    have := idxOf_lt_length h
    omega
  · rw [if_neg h] at htl
    rw [List.append_assoc] at htl
    rw [← htl, idxOf_append_right ([n] ++ tl) h, idxOf_append_right ([n] ++ tl) hp1]
    have e1 : idxOf n ([n] ++ tl) = 0 := by
      show (if n = n then 0 else _) = 0
      rw [if_pos rfl]
    have e2 : idxOf p ([n] ++ tl) = idxOf p tl + 1 := by
      show (if n = p then 0 else idxOf p tl + 1) = _
      rw [if_neg (fun hc => hp2 hc.symm)]
    omega

/-! ## Lemmas: the `done` processing of `static_order` -/

theorem decList_cons (cnt : TypeNode → Int) (ready : List TypeNode)
    (v : TypeNode) (vs : List TypeNode) :
    decList cnt ready (v :: vs) =
      decList (fun y => if y = v then cnt v - 1 else cnt y)
        (if cnt v - 1 = 0 then ready ++ [v] else ready) vs := rfl

theorem decList_fst (cnt : TypeNode → Int) (ready l : List TypeNode)
    (x : TypeNode) :
    (decList cnt ready l).1 x = cnt x - (occ x l : Int) := by
  induction l generalizing cnt ready with
  | nil =>
    show cnt x = cnt x - ((occ x [] : Nat) : Int)
    show cnt x = cnt x - ((0 : Nat) : Int)
    omega
  | cons v vs ih =>
    rw [decList_cons, ih]
    show (if x = v then cnt v - 1 else cnt x) - ((occ x vs : Nat) : Int)
        = cnt x - ((occ x (v :: vs) : Nat) : Int)
    have e : occ x (v :: vs) = (if v = x then 1 else 0) + occ x vs := rfl
    rw [e]
    by_cases h : x = v
    · rw [if_pos h, if_pos h.symm]
      subst h
      push_cast
      omega
    · rw [if_neg h, if_neg (fun hc => h hc.symm)]
      push_cast
      omega

theorem decList_snd_mem (cnt : TypeNode → Int) (ready l : List TypeNode)
    (x : TypeNode) :
    x ∈ (decList cnt ready l).2 ↔
      x ∈ ready ∨ (1 ≤ cnt x ∧ cnt x ≤ (occ x l : Int)) := by
  induction l generalizing cnt ready with
  | nil =>
    show x ∈ ready ↔ x ∈ ready ∨ (1 ≤ cnt x ∧ cnt x ≤ ((occ x [] : Nat) : Int))
    constructor
    · exact Or.inl
    · rintro (h | ⟨h1, h2⟩)
      · exact h
      · have e : occ x [] = 0 := rfl
        rw [e] at h2
        omega
  | cons v vs ih =>
    rw [decList_cons, ih]
    have e : occ x (v :: vs) = (if v = x then 1 else 0) + occ x vs := rfl
    by_cases h : x = v
    · subst h
      rw [if_pos rfl] at e ⊢
      by_cases hz : cnt x - 1 = 0
      · rw [if_pos hz]
        constructor
        · intro _
          right
          rw [e]
          push_cast
          omega
        · intro _
          left
          exact List.mem_append.mpr (Or.inr (List.mem_singleton.mpr rfl))
      · rw [if_neg hz]
        refine or_congr Iff.rfl ?_
        rw [e]
        push_cast
        omega
    · rw [if_neg h]
      have hvx : ¬v = x := fun hc => h hc.symm
      rw [if_neg hvx] at e
      have hready : (x ∈ (if cnt v - 1 = 0 then ready ++ [v] else ready))
          ↔ x ∈ ready := by
        by_cases hz : cnt v - 1 = 0
        · rw [if_pos hz, List.mem_append]
          constructor
          · rintro (h1 | h1)
            · exact h1
            · exact absurd (List.mem_singleton.mp h1) h
          · exact Or.inl
        · rw [if_neg hz]
      rw [hready, e]
      refine or_congr Iff.rfl ?_
      push_cast
      omega

theorem decList_nodup_le {cnt : TypeNode → Int} {ready : List TypeNode}
    (l : List TypeNode) (hr : ready.Nodup)
    (hle : ∀ y ∈ ready, cnt y ≤ 0) :
    (decList cnt ready l).2.Nodup ∧
      ∀ y ∈ (decList cnt ready l).2, (decList cnt ready l).1 y ≤ 0 := by
  induction l generalizing cnt ready with
  | nil => exact ⟨hr, hle⟩
  | cons v vs ih =>
    rw [decList_cons]
    by_cases hz : cnt v - 1 = 0
    · rw [if_pos hz]
      refine ih ?_ ?_
      · have hv : v ∉ ready := by
          intro hc
          have := hle v hc
          omega
        simp [List.nodup_append, hr, hv]
      · intro y hy
        rcases List.mem_append.mp hy with h1 | h1
        · show (if y = v then cnt v - 1 else cnt y) ≤ 0
          by_cases h2 : y = v
          · rw [if_pos h2]; omega
          · rw [if_neg h2]; exact hle y h1
        · have : y = v := List.mem_singleton.mp h1
          subst this
          show (if y = y then cnt y - 1 else cnt y) ≤ 0
          rw [if_pos rfl]
          omega
    · rw [if_neg hz]
      refine ih hr ?_
      intro y hy
      show (if y = v then cnt v - 1 else cnt y) ≤ 0
      by_cases h2 : y = v
      · rw [if_pos h2]
        have := hle v (h2 ▸ hy)
        omega
      · rw [if_neg h2]; exact hle y hy

theorem doneList_cons (g : List NodeInfo) (cnt : TypeNode → Int)
    (ready : List TypeNode) (n : TypeNode) (ns : List TypeNode) :
    doneList g cnt ready (n :: ns) =
      doneList g
        (decList (fun x => if x = n then -2 else cnt x) ready (succsOf g n)).1
        (decList (fun x => if x = n then -2 else cnt x) ready (succsOf g n)).2
        ns := rfl

theorem batchOcc_cons (g : List NodeInfo) (x n : TypeNode)
    (ns : List TypeNode) :
    batchOcc g x (n :: ns) = occ x (succsOf g n) + batchOcc g x ns := rfl

theorem doneList_fst (g : List NodeInfo) (cnt : TypeNode → Int)
    (ready ns : List TypeNode) (x : TypeNode) (hx : x ∉ ns) :
    (doneList g cnt ready ns).1 x = cnt x - (batchOcc g x ns : Int) := by
  induction ns generalizing cnt ready with
  | nil =>
    show cnt x = cnt x - ((batchOcc g x [] : Nat) : Int)
    show cnt x = cnt x - ((0 : Nat) : Int)
    omega
  | cons n ns ih =>
    have hxn : x ≠ n := fun hc => hx (hc ▸ List.mem_cons_self n ns)
    have hx2 : x ∉ ns := fun hc => hx (List.mem_cons_of_mem n hc)
    rw [doneList_cons, ih _ _ hx2, decList_fst]
    show (if x = n then (-2 : Int) else cnt x) - _ - _ = _
    rw [if_neg hxn, batchOcc_cons]
    push_cast
    omega

theorem doneList_fst_mem_le (g : List NodeInfo) (cnt : TypeNode → Int)
    (ready ns : List TypeNode) (x : TypeNode) (hx : x ∈ ns) :
    (doneList g cnt ready ns).1 x ≤ -2 := by
  induction ns generalizing cnt ready with
  | nil => cases hx
  | cons n ns ih =>
    rw [doneList_cons]
    by_cases h2 : x ∈ ns
    · exact ih _ _ h2
    · have hxn : x = n := by
        rcases List.mem_cons.mp hx with h1 | h1
        · exact h1
        · exact absurd h1 h2
      subst hxn
      rw [doneList_fst _ _ _ _ _ h2, decList_fst]
      show (if x = x then (-2 : Int) else cnt x) - _ - _ ≤ -2
      rw [if_pos rfl]
      have h3 : (0 : Int) ≤ (occ x (succsOf g x) : Int) := Int.ofNat_nonneg _
      have h4 : (0 : Int) ≤ (batchOcc g x ns : Int) := Int.ofNat_nonneg _
      omega

theorem doneList_snd_mem (g : List NodeInfo) {cnt : TypeNode → Int}
    {ns : List TypeNode} (ready : List TypeNode) (x : TypeNode)
    (hm : ∀ n ∈ ns, cnt n ≤ -1) (hnd : ns.Nodup) :
    x ∈ (doneList g cnt ready ns).2 ↔
      x ∈ ready ∨ (x ∉ ns ∧ 1 ≤ cnt x ∧ cnt x ≤ (batchOcc g x ns : Int)) := by
  induction ns generalizing cnt ready with
  | nil =>
    show x ∈ ready ↔ x ∈ ready ∨ (x ∉ ([] : List TypeNode) ∧ _ ∧ _)
    constructor
    · exact Or.inl
    · rintro (h | ⟨h1, h2, h3⟩)
      · exact h
      · have e : batchOcc g x [] = 0 := rfl
        rw [e] at h3
        omega
  | cons n ns ih =>
    rw [doneList_cons]
    have hndt : ns.Nodup := (List.nodup_cons.mp hnd).2
    have hnn : n ∉ ns := (List.nodup_cons.mp hnd).1
    set cntD : TypeNode → Int := fun y => if y = n then -2 else cnt y with hcntD
    have hmt : ∀ m ∈ ns,
        (decList cntD ready (succsOf g n)).1 m ≤ -1 := by
      intro m hmm
      have hmn : m ≠ n := fun hc => hnn (hc ▸ hmm)
      rw [decList_fst]
      have e1 : cntD m = cnt m := by
        show (if m = n then (-2 : Int) else cnt m) = cnt m
        rw [if_neg hmn]
      rw [e1]
      have := hm m (List.mem_cons_of_mem n hmm)
      have h4 : (0 : Int) ≤ (occ m (succsOf g n) : Int) := Int.ofNat_nonneg _
      omega
    rw [ih _ hmt hndt]
    rw [decList_snd_mem, decList_fst]
    by_cases hxn : x = n
    · subst hxn
      have e1 : cntD x = -2 := by
        show (if x = x then (-2 : Int) else cnt x) = -2
        rw [if_pos rfl]
      rw [e1]
      constructor
      · rintro ((h | ⟨h1, h2⟩) | ⟨h1, h2, h3⟩)
        · exact Or.inl h
        · omega
        · omega
      · rintro (h | ⟨h1, h2, h3⟩)
        · exact Or.inl (Or.inl h)
        · exact absurd (List.mem_cons_self x ns) h1
    · have e1 : cntD x = cnt x := by
        show (if x = n then (-2 : Int) else cnt x) = cnt x
        rw [if_neg hxn]
      rw [e1, batchOcc_cons]
      have hxcons : (x ∉ n :: ns) ↔ (x ∉ ns) := by
        rw [List.mem_cons]
        constructor
        · intro h1 h2
          exact h1 (Or.inr h2)
        · intro h1 h2
          rcases h2 with h2 | h2
          · exact hxn h2
          · exact h1 h2
      rw [hxcons]
      by_cases hxs : x ∈ ns
      · have hc1 := hm x (List.mem_cons_of_mem n hxs)
        constructor
        · rintro ((h | ⟨h1, h2⟩) | ⟨h1, h2, h3⟩)
          · exact Or.inl h
          · omega
          · exact absurd hxs h1
        · rintro (h | ⟨h1, h2, h3⟩)
          · exact Or.inl (Or.inl h)
          · exact absurd hxs h1
      · push_cast
        constructor
        · rintro ((h | ⟨h1, h2⟩) | ⟨h1, h2, h3⟩)
          · exact Or.inl h
          · refine Or.inr ⟨hxs, h1, ?_⟩
            have h4 : (0 : Int) ≤ (batchOcc g x ns : Int) := Int.ofNat_nonneg _
            omega
          · refine Or.inr ⟨hxs, by omega, by omega⟩
        · rintro (h | ⟨h1, h2, h3⟩)
          · exact Or.inl (Or.inl h)
          · by_cases h5 : cnt x ≤ (occ x (succsOf g n) : Int)
            · exact Or.inl (Or.inr ⟨h2, h5⟩)
            · refine Or.inr ⟨hxs, by omega, by omega⟩

theorem doneList_nodup_le (g : List NodeInfo) {cnt : TypeNode → Int}
    {ready : List TypeNode} (ns : List TypeNode) (hr : ready.Nodup)
    (hle : ∀ y ∈ ready, cnt y ≤ 0) :
    (doneList g cnt ready ns).2.Nodup ∧
      ∀ y ∈ (doneList g cnt ready ns).2, (doneList g cnt ready ns).1 y ≤ 0 := by
  induction ns generalizing cnt ready with
  | nil => exact ⟨hr, hle⟩
  | cons n ns ih =>
    rw [doneList_cons]
    set cntD : TypeNode → Int := fun y => if y = n then -2 else cnt y with hcntD
    have hleD : ∀ y ∈ ready, cntD y ≤ 0 := by
      intro y hy
      show (if y = n then (-2 : Int) else cnt y) ≤ 0
      by_cases h2 : y = n
      · rw [if_pos h2]; omega
      · rw [if_neg h2]; exact hle y hy
    have hdl := decList_nodup_le (succsOf g n) hr hleD
    exact ih hdl.1 hdl.2

/-! ## Lemmas: the `static_order` rounds -/

theorem sortLoop_nil (g : List NodeInfo) (fuel : Nat) (cnt : TypeNode → Int)
    (acc : List TypeNode) : sortLoop g (fuel + 1) cnt [] acc = acc := rfl

theorem sortLoop_cons (g : List NodeInfo) (fuel : Nat) (cnt : TypeNode → Int)
    (hd : TypeNode) (tl acc : List TypeNode) :
    sortLoop g (fuel + 1) cnt (hd :: tl) acc =
      sortLoop g fuel
        (doneList g (fun x => if x ∈ hd :: tl then -1 else cnt x) [] (hd :: tl)).1
        (doneList g (fun x => if x ∈ hd :: tl then -1 else cnt x) [] (hd :: tl)).2
        (acc ++ hd :: tl) := rfl

theorem batchOcc_pos {g : List NodeInfo} {x : TypeNode} {ns : List TypeNode}
    (h : 0 < batchOcc g x ns) : ∃ n ∈ ns, x ∈ succsOf g n := by
  induction ns with
  | nil =>
    have h0 : batchOcc g x [] = 0 := rfl
    rw [h0] at h
    omega
  | cons n ns ih =>
    rw [batchOcc_cons] at h
    by_cases h1 : 0 < occ x (succsOf g n)
    · exact ⟨n, List.mem_cons_self n ns, occ_pos.mp h1⟩
    · have h2 : 0 < batchOcc g x ns := by omega
      rcases ih h2 with ⟨m, hm, hx⟩
      exact ⟨m, List.mem_cons_of_mem n hm, hx⟩

theorem sortInv_step {g : List NodeInfo} (hnd : (keysOf g).Nodup)
    (hclosed : ∀ u v, EdgeStep g u v → v ∈ keysOf g)
    {cnt : TypeNode → Int} {ready acc : List TypeNode}
    (inv : SortInv g cnt ready acc) :
    SortInv g
      (doneList g (fun x => if x ∈ ready then -1 else cnt x) [] ready).1
      (doneList g (fun x => if x ∈ ready then -1 else cnt x) [] ready).2
      (acc ++ ready) := by
  set cntOut : TypeNode → Int := fun x => if x ∈ ready then -1 else cnt x
    with hcntOut
  have hnodupA : acc.Nodup := (List.nodup_append.mp inv.nodup).1
  have hnodupR : ready.Nodup := (List.nodup_append.mp inv.nodup).2.1
  have hdisj : List.Disjoint acc ready := (List.nodup_append.mp inv.nodup).2.2
  have hmOut : ∀ n ∈ ready, cntOut n ≤ -1 := by
    intro n hn
    show (if n ∈ ready then (-1 : Int) else cnt n) ≤ -1
    rw [if_pos hn]
  have hOutEq : ∀ x, x ∉ ready → cntOut x = cnt x := by
    intro x hx
    show (if x ∈ ready then (-1 : Int) else cnt x) = cnt x
    rw [if_neg hx]
  have hmem : ∀ x, x ∈ (doneList g cntOut [] ready).2 ↔
      (x ∉ ready ∧ 1 ≤ cnt x ∧ cnt x ≤ (batchOcc g x ready : Int)) := by
    intro x
    rw [doneList_snd_mem g [] x hmOut hnodupR]
    constructor
    · rintro (h | ⟨h1, h2, h3⟩)
      · cases h
      · rw [hOutEq x h1] at h2 h3
        exact ⟨h1, h2, h3⟩
    · rintro ⟨h1, h2, h3⟩
      rw [← hOutEq x h1] at h2 h3
      exact Or.inr ⟨h1, h2, h3⟩
  have hfst : ∀ x, x ∉ ready → (doneList g cntOut [] ready).1 x
      = cnt x - (batchOcc g x ready : Int) := by
    intro x hx
    rw [doneList_fst g cntOut [] ready x hx, hOutEq x hx]
  have hfstMem : ∀ x ∈ ready, (doneList g cntOut [] ready).1 x ≤ -2 :=
    fun x hx => doneList_fst_mem_le g cntOut [] ready x hx
  have hLe2 : ((doneList g cntOut [] ready).2.Nodup ∧
      ∀ y ∈ (doneList g cntOut [] ready).2,
        (doneList g cntOut [] ready).1 y ≤ 0) :=
    doneList_nodup_le g ready List.nodup_nil
      (fun y hy => absurd hy (List.not_mem_nil y))
  have hsplit : ∀ x, indeg g acc x
      = indeg g (acc ++ ready) x + batchOcc g x ready :=
    fun x => indeg_batch x hnd hnodupR (fun n hn hc => hdisj hc hn)
  have hReadyKeys : ∀ x ∈ (doneList g cntOut [] ready).2, x ∈ keysOf g := by
    intro x hx
    rcases (hmem x).mp hx with ⟨h1, h2, h3⟩
    have hpos : 0 < batchOcc g x ready := by
      by_contra hc
      push_neg at hc
      have h0 : batchOcc g x ready = 0 := Nat.le_zero.mp hc
      rw [h0] at h3
      omega
    rcases batchOcc_pos hpos with ⟨n, hn, hxs⟩
    exact hclosed n x ((edgeStep_iff_succsOf hnd).mpr hxs)
  have hReadyNotAcc : ∀ x ∈ (doneList g cntOut [] ready).2, x ∉ acc := by
    intro x hx hxa
    rcases (hmem x).mp hx with ⟨h1, h2, _⟩
    have := inv.emittedLe x (List.mem_append.mpr (Or.inl hxa))
    omega
  have hReadyNotBatch : ∀ x ∈ (doneList g cntOut [] ready).2, x ∉ ready :=
    fun x hx => ((hmem x).mp hx).1
  refine ⟨?_, ?_, ?_, ?_, ?_, ?_⟩
  · intro v hv
    rcases List.mem_append.mp hv with h | h
    · exact inv.subKeys v h
    · exact hReadyKeys v h
  · rw [List.nodup_append]
    refine ⟨inv.nodup, hLe2.1, ?_⟩
    intro a ha hr2
    rcases List.mem_append.mp ha with h | h
    · exact hReadyNotAcc a hr2 h
    · exact hReadyNotBatch a hr2 h
  · intro v hv
    rcases List.mem_append.mp hv with h | h
    · rcases List.mem_append.mp h with h1 | h1
      · have hvr : v ∉ ready := fun hc => hdisj h1 hc
        rw [hfst v hvr]
        have hle := inv.emittedLe v (List.mem_append.mpr (Or.inl h1))
        have h4 : (0 : Int) ≤ (batchOcc g v ready : Int) := Int.ofNat_nonneg _
        omega
      · have := hfstMem v h1
        omega
    · exact hLe2.2 v h
  · intro v hv hvn
    have hva : v ∉ acc := fun hc =>
      hvn (List.mem_append.mpr (Or.inl (List.mem_append.mpr (Or.inl hc))))
    have hvr : v ∉ ready := fun hc =>
      hvn (List.mem_append.mpr (Or.inl (List.mem_append.mpr (Or.inr hc))))
    have hvr2 : v ∉ (doneList g cntOut [] ready).2 := fun hc =>
      hvn (List.mem_append.mpr (Or.inr hc))
    have hold := inv.unem v hv (by
      intro hc
      rcases List.mem_append.mp hc with h | h
      · exact hva h
      · exact hvr h)
    rw [hfst v hvr]
    have hs := hsplit v
    have hnot : ¬(1 ≤ cnt v ∧ cnt v ≤ (batchOcc g v ready : Int)) :=
      fun hc => hvr2 ((hmem v).mpr ⟨hvr, hc⟩)
    push_neg at hnot
    have hgt := hnot hold.2
    constructor
    · rw [hold.1, hs]
      push_cast
      ring
    · rw [hold.1, hs] at hgt ⊢
      push_cast at hgt ⊢
      omega
  · intro v hv
    rcases (hmem v).mp hv with ⟨h1, h2, h3⟩
    have hva : v ∉ acc := hReadyNotAcc v hv
    have hold := inv.unem v (hReadyKeys v hv) (by
      intro hc
      rcases List.mem_append.mp hc with h | h
      · exact hva h
      · exact h1 h)
    have hs := hsplit v
    have h5 : (indeg g acc v : Int) ≤ (batchOcc g v ready : Int) := by
      rw [← hold.1]
      exact h3
    have h6 : indeg g acc v ≤ batchOcc g v ready := by exact_mod_cast h5
    omega
  · intro v hv u hedge
    rcases List.mem_append.mp hv with h1 | h1
    · rcases inv.accSrc v h1 u hedge with ⟨hu, hidx⟩
      refine ⟨List.mem_append.mpr (Or.inl hu), ?_⟩
      rw [idxOf_append_left ready hu, idxOf_append_left ready h1]
      exact hidx
    · have h0 : indeg g acc v = 0 := inv.readySrc v h1
      have hu : u ∈ acc := edge_done_of_indeg_zero h0 u hedge
      refine ⟨List.mem_append.mpr (Or.inl hu), ?_⟩
      have hva : v ∉ acc := fun hc => hdisj hc h1
      rw [idxOf_append_left ready hu, idxOf_append_right ready hva]
      have := idxOf_lt_length hu
      omega

theorem sortLoop_post {g : List NodeInfo} (hnd : (keysOf g).Nodup)
    (hclosed : ∀ u v, EdgeStep g u v → v ∈ keysOf g)
    (r : TypeNode → Nat) (hr : ∀ u v, EdgeStep g u v → r u < r v) :
    ∀ fuel (cnt : TypeNode → Int) (ready acc : List TypeNode),
      SortInv g cnt ready acc →
      g.length + 1 ≤ fuel + acc.length →
      (∀ v ∈ keysOf g, v ∈ sortLoop g fuel cnt ready acc) ∧
      (sortLoop g fuel cnt ready acc).Nodup ∧
      (∀ v ∈ sortLoop g fuel cnt ready acc, v ∈ keysOf g) ∧
      (∀ u v, EdgeStep g u v → v ∈ sortLoop g fuel cnt ready acc →
        u ∈ sortLoop g fuel cnt ready acc ∧
        idxOf u (sortLoop g fuel cnt ready acc) <
          idxOf v (sortLoop g fuel cnt ready acc)) := by
  intro fuel
  induction fuel with
  | zero =>
    intro cnt ready acc inv hbound
    have h1 : (acc ++ ready).length ≤ (keysOf g).length :=
      (List.subperm_of_subset inv.nodup inv.subKeys).length_le
    have h2 : (keysOf g).length = g.length := by simp [keysOf]
    rw [List.length_append] at h1
    exact absurd hbound (by omega)
  | succ fuel ih =>
    intro cnt ready acc inv hbound
    cases ready with
    | nil =>
      rw [sortLoop_nil]
      have hstep : ∀ v, v ∈ keysOf g → v ∉ acc →
          ∃ u, u ∈ keysOf g ∧ u ∉ acc ∧ r u < r v := by
        intro v hv hva
        have hun := inv.unem v hv (by rw [List.append_nil]; exact hva)
        have hpos : 1 ≤ indeg g acc v := by
          have h1 := hun.2
          rw [hun.1] at h1
          exact_mod_cast h1
        have hne : indeg g acc v ≠ 0 := by omega
        have h2 : ¬(∀ i ∈ g, i.node ∉ acc → v ∉ i.succs) :=
          fun hall => hne (indeg_zero_iff.mpr hall)
        push_neg at h2
        rcases h2 with ⟨i, hi, hina, hins⟩
        exact ⟨i.node, mem_keysOf.mpr ⟨i, hi, rfl⟩, hina,
          hr i.node v ⟨i, hi, rfl, hins⟩⟩
      have hcomp : ∀ v ∈ keysOf g, v ∈ acc := by
        have main : ∀ k v, v ∈ keysOf g → r v ≤ k → v ∈ acc := by
          intro k
          induction k with
          | zero =>
            intro v hv hrv
            by_contra hva
            rcases hstep v hv hva with ⟨u, hu1, hu2, hu3⟩
            omega
          | succ k ihk =>
            intro v hv hrv
            by_contra hva
            rcases hstep v hv hva with ⟨u, hu1, hu2, hu3⟩
            exact hu2 (ihk u hu1 (by omega))
        exact fun v hv => main (r v) v hv le_rfl
      refine ⟨hcomp, ?_, ?_, ?_⟩
      · have h3 := inv.nodup
        rwa [List.append_nil] at h3
      · intro v hv
        exact inv.subKeys v (by rw [List.append_nil]; exact hv)
      · intro u v hedge hv
        exact inv.accSrc v hv u hedge
    | cons hd tl =>
      rw [sortLoop_cons]
      have inv2 := sortInv_step hnd hclosed inv
      have hbound2 : g.length + 1 ≤ fuel + (acc ++ hd :: tl).length := by
        rw [List.length_append, List.length_cons]
        omega
      exact ih _ _ _ inv2 hbound2

theorem staticOrder_spec {g : List NodeInfo} (hnd : (keysOf g).Nodup)
    (hclosed : ∀ u v, EdgeStep g u v → v ∈ keysOf g)
    (hcons : ∀ i ∈ g, i.npred = indeg g [] i.node)
    (r : TypeNode → Nat) (hr : ∀ u v, EdgeStep g u v → r u < r v) :
    (∀ v, v ∈ staticOrder g ↔ v ∈ keysOf g) ∧ (staticOrder g).Nodup ∧
      (∀ u v, EdgeStep g u v →
        idxOf u (staticOrder g) < idxOf v (staticOrder g)) := by
  have hready : ∀ v, v ∈ (g.filter (fun i => decide (i.npred = 0))).map
      (fun i => i.node) ↔ ∃ i, i ∈ g ∧ i.npred = 0 ∧ i.node = v := by
    intro v
    rw [List.mem_map]
    constructor
    · rintro ⟨i, hi, hin⟩
      have h2 := List.mem_filter.mp hi
      exact ⟨i, h2.1, of_decide_eq_true h2.2, hin⟩
    · rintro ⟨i, hi, h0, hin⟩
      exact ⟨i, List.mem_filter.mpr ⟨hi, decide_eq_true h0⟩, hin⟩
  have inv0 : SortInv g (fun v => (npredOf g v : Int))
      ((g.filter (fun i => decide (i.npred = 0))).map (fun i => i.node)) [] := by
    refine ⟨?_, ?_, ?_, ?_, ?_, ?_⟩
    · intro v hv
      rw [List.nil_append] at hv
      rcases (hready v).mp hv with ⟨i, hi, _, hin⟩
      exact mem_keysOf.mpr ⟨i, hi, hin⟩
    · rw [List.nil_append]
      have hsub : ((g.filter (fun i => decide (i.npred = 0))).map
          (fun i => i.node)).Sublist (keysOf g) :=
        List.Sublist.map _ (List.filter_sublist g)
      exact List.Nodup.sublist hsub hnd
    · intro v hv
      rw [List.nil_append] at hv
      rcases (hready v).mp hv with ⟨i, hi, h0, hin⟩
      show ((npredOf g v : Nat) : Int) ≤ 0
      rw [← hin, npredOf_of_mem hnd hi, h0]
      rfl
    · intro v hv hvn
      rw [List.nil_append] at hvn
      rcases mem_keysOf.mp hv with ⟨i, hi, hin⟩
      have h0 : i.npred ≠ 0 :=
        fun hc => hvn ((hready v).mpr ⟨i, hi, hc, hin⟩)
      have he : npredOf g v = i.npred := by rw [← hin, npredOf_of_mem hnd hi]
      have he2 : indeg g [] v = i.npred := by rw [← hin, ← hcons i hi]
      constructor
      · show ((npredOf g v : Nat) : Int) = _
        rw [he, he2]
      · show (1 : Int) ≤ ((npredOf g v : Nat) : Int)
        rw [he]
        exact_mod_cast Nat.one_le_iff_ne_zero.mpr h0
    · intro v hv
      rcases (hready v).mp hv with ⟨i, hi, h0, hin⟩
      rw [← hin, ← hcons i hi]
      exact h0
    · intro v hv
      cases hv
  have hb : g.length + 1 ≤ (g.length + 1) + ([] : List TypeNode).length := by
    simp
  have post := sortLoop_post hnd hclosed r hr (g.length + 1) _ _ _ inv0 hb
  refine ⟨?_, post.2.1, ?_⟩
  · intro v
    exact ⟨fun hv => post.2.2.1 v hv, fun hv => post.1 v hv⟩
  · intro u v hedge
    have hv : v ∈ staticOrder g := post.1 v (hclosed u v hedge)
    exact (post.2.2.2 u v hedge hv).2

/-! ## Lemmas: the breadth-first builder -/

theorem edgeStep_src_mem {g : List NodeInfo} {u v : TypeNode}
    (h : EdgeStep g u v) : u ∈ keysOf g := by
  rcases h with ⟨i, hi, hiu, _⟩
  exact mem_keysOf.mpr ⟨i, hi, hiu⟩

theorem level_empty_of_not_cyclic {env : TypeEnv} (hsc : ScalarStdlib env)
    {child : Desc}
    (h : (issubscriptedgeneric env child || !isstdlibtype env child) = false) :
    _level env child = [] := by
  cases child with
  | prim n => rfl
  | comp i =>
    rw [Bool.or_eq_false_iff] at h
    have h1 : (env i).args.isEmpty = true := by
      have h3 : (!(env i).args.isEmpty) = false := h.1
      rwa [Bool.not_eq_false'] at h3
    have h2 : (env i).stdlib = true := by
      have h3 : (!(env i).stdlib) = false := h.2
      rwa [Bool.not_eq_false'] at h3
    have ha : (env i).args = [] := List.isEmpty_iff.mp h1
    have hf : (env i).fields = [] := hsc i h2 ha
    show (env i).args.map (fun a => (none, a)) ++
      (env i).fields.map (fun p => (some p.1, p.2)) = []
    rw [ha, hf]
    rfl
  | ref n a m c => rfl
  | anyTy => rfl

theorem processPair_skip (env : TypeEnv) (acc : BuildAcc)
    (var : Option String) :
    processPair env acc (var, Desc.anyTy) = acc := by
  unfold processPair
  rw [if_pos rfl]

theorem processPair_cyclic (env : TypeEnv) (acc : BuildAcc)
    (var : Option String) (child : Desc) (hne : child ≠ Desc.anyTy)
    (hc : child ∈ acc.visited ∧
      (issubscriptedgeneric env child || !isstdlibtype env child) = true) :
    processPair env acc (var, child) =
      { acc with preds := acc.preds ++
          [⟨forwardref (get_qualname env child) var.isSome
              (get_module env child) (isclass env child), var, true⟩] } := by
  unfold processPair
  rw [if_neg hne, if_pos hc]

theorem processPair_else (env : TypeEnv) (acc : BuildAcc)
    (var : Option String) (child : Desc) (hne : child ≠ Desc.anyTy)
    (hc : ¬(child ∈ acc.visited ∧
      (issubscriptedgeneric env child || !isstdlibtype env child) = true)) :
    processPair env acc (var, child) =
      { preds := acc.preds ++ [⟨child, var, false⟩]
        visited := insert child acc.visited
        pushed := acc.pushed ++ [⟨child, var, false⟩] } := by
  unfold processPair
  rw [if_neg hne, if_neg hc]

theorem processPair_accOK {env : TypeEnv} (hsc : ScalarStdlib env)
    {visited0 : Finset Desc} {acc : BuildAcc} (h : AccOK env visited0 acc)
    (p : Option String × Desc) : AccOK env visited0 (processPair env acc p) := by
  obtain ⟨var, child⟩ := p
  by_cases hany : child = Desc.anyTy
  · subst hany
    rw [processPair_skip]
    exact h
  by_cases hc : child ∈ acc.visited ∧
      (issubscriptedgeneric env child || !isstdlibtype env child) = true
  · rw [processPair_cyclic env acc var child hany hc]
    refine ⟨h.vsub, ?_, ?_, ?_, ?_⟩
    · intro n hn
      rcases h.pushedOK n hn with ⟨h1, h2, h3⟩
      exact ⟨h1, h2, List.mem_append.mpr (Or.inl h3)⟩
    · intro n hn hcy
      rcases List.mem_append.mp hn with h1 | h1
      · exact h.predsRef n h1 hcy
      · rw [List.mem_singleton] at h1
        subst h1
        exact ⟨get_qualname env child, get_module env child,
          isclass env child, rfl⟩
    · intro n hn hcy
      rcases List.mem_append.mp hn with h1 | h1
      · exact h.predsPushed n h1 hcy
      · rw [List.mem_singleton] at h1
        subst h1
        exact Bool.noConfusion hcy
    · intro n hn hterm
      rcases List.mem_append.mp hn with h1 | h1
      · exact h.predsFresh n h1 hterm
      · rw [List.mem_singleton] at h1
        subst h1
        simp [isTerminal] at hterm
  · rw [processPair_else env acc var child hany hc]
    push_neg at hc
    refine ⟨?_, ?_, ?_, ?_, ?_⟩
    · exact fun d hd => Finset.mem_insert_of_mem (h.vsub hd)
    · intro n hn
      rcases List.mem_append.mp hn with h1 | h1
      · rcases h.pushedOK n h1 with ⟨h2, h3, h4⟩
        exact ⟨h2, Finset.mem_insert_of_mem h3,
          List.mem_append.mpr (Or.inl h4)⟩
      · rw [List.mem_singleton] at h1
        subst h1
        exact ⟨rfl, Finset.mem_insert_self _ _,
          List.mem_append.mpr (Or.inr (List.mem_singleton.mpr rfl))⟩
    · intro n hn hcy
      rcases List.mem_append.mp hn with h1 | h1
      · exact h.predsRef n h1 hcy
      · rw [List.mem_singleton] at h1
        subst h1
        exact Bool.noConfusion hcy
    · intro n hn hcy
      rcases List.mem_append.mp hn with h1 | h1
      · exact List.mem_append.mpr (Or.inl (h.predsPushed n h1 hcy))
      · rw [List.mem_singleton] at h1
        subst h1
        exact List.mem_append.mpr (Or.inr (List.mem_singleton.mpr rfl))
    · intro n hn hterm
      rcases List.mem_append.mp hn with h1 | h1
      · exact h.predsFresh n h1 hterm
      · rw [List.mem_singleton] at h1
        subst h1
        refine ⟨?_, rfl⟩
        by_cases hv : child ∈ acc.visited
        · have hcap := hc hv
          have hcap2 : (issubscriptedgeneric env child ||
              !isstdlibtype env child) = false := by
            cases hb : (issubscriptedgeneric env child ||
                !isstdlibtype env child)
            · rfl
            · exact absurd hb hcap
          have hlev := level_empty_of_not_cyclic hsc hcap2
          rw [isTerminal] at hterm
          simp [hlev] at hterm
        · exact fun hd => hv (h.vsub hd)

theorem processLevel_accOK {env : TypeEnv} (hsc : ScalarStdlib env)
    (visited : Finset Desc) (pairs : List (Option String × Desc)) :
    AccOK env visited (processLevel env visited pairs) := by
  have init : AccOK env visited ⟨[], visited, []⟩ := by
    refine ⟨fun d hd => hd, ?_, ?_, ?_, ?_⟩ <;> intro n hn <;> cases hn
  have gen : ∀ (l : List (Option String × Desc)) (acc : BuildAcc),
      AccOK env visited acc →
      AccOK env visited (l.foldl (processPair env) acc) := by
    intro l
    induction l with
    | nil => intro acc h; exact h
    | cons p ps ih => intro acc h; exact ih _ (processPair_accOK hsc h p)
  exact gen pairs _ init

theorem processLevel_nil (env : TypeEnv) (visited : Finset Desc) :
    processLevel env visited [] = ⟨[], visited, []⟩ := rfl

theorem buildInv_step {env : TypeEnv} {root parent : TypeNode}
    {g : List NodeInfo} {rest : List TypeNode} {visited : Finset Desc}
    (hsc : ScalarStdlib env)
    (inv : BuildInv env root g (parent :: rest) visited) :
    BuildInv env root
      (graphAdd g parent (processLevel env visited (_level env parent.type)).preds)
      (rest ++ (processLevel env visited (_level env parent.type)).pushed)
      (processLevel env visited (_level env parent.type)).visited := by
  set acc := processLevel env visited (_level env parent.type) with hacc
  have hAcc : AccOK env visited acc := by
    rw [hacc]
    exact processLevel_accOK hsc visited _
  obtain ⟨hpcyc, hpvis, hpkeys⟩ := inv.stackOK parent (List.mem_cons_self parent rest)
  have hnd := inv.wf.nodupKeys
  have hmem2 : ∀ v, v ∈ keysOf (graphAdd g parent acc.preds) ↔
      v ∈ keysOf g ∨ v = parent ∨ v ∈ acc.preds :=
    fun v => mem_keysOf_graphAdd
  have hnd2 : (keysOf (graphAdd g parent acc.preds)).Nodup :=
    nodup_graphAdd parent acc.preds hnd
  have hedge2 : ∀ u v, EdgeStep (graphAdd g parent acc.preds) u v ↔
      EdgeStep g u v ∨ (u ∈ acc.preds ∧ v = parent) :=
    fun u v => edgeStep_graphAdd hnd
  have hfreshKeys : ∀ n ∈ acc.preds, isTerminal env n = false →
      n ∉ keysOf g ∧ n ≠ parent := by
    intro n hn ht
    rcases hAcc.predsFresh n hn ht with ⟨hnv, hncyc⟩
    constructor
    · intro hk
      exact hnv (inv.vlink n hk hncyc)
    · intro he
      subst he
      exact hnv hpvis
  have hlevne : acc.preds ≠ [] → (_level env parent.type).isEmpty = false := by
    intro hne
    cases hl : _level env parent.type with
    | nil =>
      refine absurd ?_ hne
      rw [hacc, hl]
      rfl
    | cons a b => rfl
  refine ⟨⟨hnd2, ?_, ?_, ?_⟩, ⟨?_, ?_⟩, ?_, ?_, ?_, ?_⟩
  · -- closed
    intro u v he
    rcases (hedge2 u v).mp he with h1 | ⟨h1, h2⟩
    · exact (hmem2 v).mpr (Or.inl (inv.wf.closed u v h1))
    · exact (hmem2 v).mpr (Or.inr (Or.inl h2))
  · -- consistent
    intro v hv
    rw [npredOf_graphAdd parent v acc.preds,
      indeg_graphAdd_nil parent v acc.preds hnd]
    by_cases hvk : v ∈ keysOf g
    · rw [inv.wf.consistent v hvk]
    · have h0 : npredOf g v = 0 := npredOf_eq_zero_of_not_mem hvk
      have h1 : indeg g [] v = 0 := by
        by_contra hcne
        have h2 : ¬(∀ i ∈ g, i.node ∉ ([] : List TypeNode) → v ∉ i.succs) :=
          fun hall => hcne (indeg_zero_iff.mpr hall)
        push_neg at h2
        rcases h2 with ⟨i, hi, _, hins⟩
        exact hvk (inv.wf.closed i.node v ⟨i, hi, rfl, hins⟩)
      rw [h0, h1]
  · -- acyclicity witness
    intro u v he
    rcases (hedge2 u v).mp he with h1 | ⟨h1, h2⟩
    · rcases inv.wf.acy u v h1 with ⟨hv1, hv2⟩
      refine ⟨hv1, ?_⟩
      rcases hv2 with h3 | h3
      · exact Or.inl h3
      · right
        have hu : u ∈ keysOf g := edgeStep_src_mem h1
        have hvv : v ∈ keysOf g := inv.wf.closed u v h1
        rw [idxOf_graphAdd_old parent acc.preds hu,
          idxOf_graphAdd_old parent acc.preds hvv]
        exact h3
    · subst h2
      have hne : acc.preds ≠ [] := List.ne_nil_of_mem h1
      refine ⟨⟨hlevne hne, hpcyc⟩, ?_⟩
      by_cases ht : isTerminal env u = true
      · exact Or.inl ht
      · right
        have ht2 : isTerminal env u = false := by
          cases hb : isTerminal env u
          · rfl
          · exact absurd hb ht
        rcases hfreshKeys u h1 ht2 with ⟨hk, hne2⟩
        exact idxOf_graphAdd_parent_lt hk hne2
  · -- refForm
    intro v hv hcy
    rcases (hmem2 v).mp hv with h1 | h1 | h1
    · exact inv.cyc.refForm v h1 hcy
    · subst h1
      rw [hpcyc] at hcy
      exact Bool.noConfusion hcy
    · exact hAcc.predsRef v h1 hcy
  · -- nopred
    intro v hv hcy
    have hvp : v ≠ parent := by
      intro he2
      subst he2
      rw [hpcyc] at hcy
      exact Bool.noConfusion hcy
    rw [npredOf_graphAdd parent v acc.preds, if_neg hvp]
    have h0 : npredOf g v = 0 := by
      rcases (hmem2 v).mp hv with h1 | h1 | h1
      · exact inv.cyc.nopred v h1 hcy
      · exact absurd h1 hvp
      · by_cases hvk : v ∈ keysOf g
        · exact inv.cyc.nopred v hvk hcy
        · exact npredOf_eq_zero_of_not_mem hvk
    omega
  · -- vlink
    intro v hv hcy
    rcases (hmem2 v).mp hv with h1 | h1 | h1
    · exact hAcc.vsub (inv.vlink v h1 hcy)
    · subst h1
      exact hAcc.vsub hpvis
    · rcases hAcc.pushedOK v (hAcc.predsPushed v h1 hcy) with ⟨_, h2, _⟩
      exact h2
  · -- stackOK
    intro n hn
    rcases List.mem_append.mp hn with h1 | h1
    · rcases inv.stackOK n (List.mem_cons_of_mem parent h1) with ⟨h2, h3, h4⟩
      refine ⟨h2, hAcc.vsub h3, Or.inl ?_⟩
      rcases h4 with h4 | ⟨h4a, h4b⟩
      · exact (hmem2 n).mpr (Or.inl h4)
      · subst h4a
        rcases hpkeys with h5 | ⟨h5, _⟩
        · rw [h4b] at h5
          simp [keysOf] at h5
        · rw [← h5]
          exact (hmem2 parent).mpr (Or.inr (Or.inl rfl))
    · rcases hAcc.pushedOK n h1 with ⟨h2, h3, h4⟩
      exact ⟨h2, h3, Or.inl ((hmem2 n).mpr (Or.inr (Or.inr h4)))⟩
  · -- rootIn
    right
    rcases inv.rootIn with h1 | h1
    · rcases hpkeys with h2 | ⟨h2, _⟩
      · rw [h1] at h2
        simp [keysOf] at h2
      · rw [← h2]
        exact (hmem2 parent).mpr (Or.inr (Or.inl rfl))
    · exact (hmem2 root).mpr (Or.inl h1)
  · -- reach
    have hmono : ∀ a b, EdgeStep g a b → EdgeStep (graphAdd g parent acc.preds) a b :=
      fun a b hab => (hedge2 a b).mpr (Or.inl hab)
    have hmonoR : ∀ a b, Reaches g a b → Reaches (graphAdd g parent acc.preds) a b :=
      fun a b hab => Relation.ReflTransGen.mono hmono hab
    have hreachParent : Reaches (graphAdd g parent acc.preds) parent root := by
      rcases hpkeys with h2 | ⟨h2, _⟩
      · exact hmonoR _ _ (inv.reach parent h2)
      · rw [h2]
        exact Relation.ReflTransGen.refl
    intro v hv
    rcases (hmem2 v).mp hv with h1 | h1 | h1
    · exact hmonoR _ _ (inv.reach v h1)
    · rw [h1]
      exact hreachParent
    · have he : EdgeStep (graphAdd g parent acc.preds) v parent :=
        (hedge2 v parent).mpr (Or.inr ⟨h1, rfl⟩)
      exact Relation.ReflTransGen.head he hreachParent

theorem buildLoop_inv {env : TypeEnv} {root : TypeNode}
    (hsc : ScalarStdlib env) :
    ∀ (fuel : Nat) (g : List NodeInfo) (stack : List TypeNode)
      (visited : Finset Desc) (gOut : List NodeInfo),
      BuildInv env root g stack visited →
      buildLoop env fuel g stack visited = some gOut →
      ∃ visitedOut, BuildInv env root gOut [] visitedOut := by
  intro fuel
  induction fuel with
  | zero =>
    intro g stack visited gOut _ heq
    exact Option.noConfusion heq
  | succ fuel ih =>
    intro g stack visited gOut inv heq
    cases stack with
    | nil =>
      obtain rfl := Option.some.inj heq
      exact ⟨visited, inv⟩
    | cons parent rest =>
      have hstep := buildInv_step hsc inv
      exact ih _ _ _ _ hstep heq

theorem buildLoop_keys_front {env : TypeEnv} :
    ∀ (fuel : Nat) (g : List NodeInfo) (stack : List TypeNode)
      (visited : Finset Desc) (gOut : List NodeInfo),
      buildLoop env fuel g stack visited = some gOut →
      keysOf g <+: keysOf gOut := by
  intro fuel
  induction fuel with
  | zero =>
    intro g stack visited gOut heq
    exact Option.noConfusion heq
  | succ fuel ih =>
    intro g stack visited gOut heq
    cases stack with
    | nil =>
      obtain rfl := Option.some.inj heq
      exact List.prefix_refl _
    | cons parent rest =>
      exact List.IsPrefix.trans (keysOf_graphAdd_front g parent _)
        (ih _ _ _ _ heq)

theorem buildInv_init (env : TypeEnv) (t : Desc) :
    BuildInv env ⟨t, none, false⟩ [] [⟨t, none, false⟩] {t} := by
  refine ⟨⟨?_, ?_, ?_, ?_⟩, ⟨?_, ?_⟩, ?_, ?_, ?_, ?_⟩
  · exact List.nodup_nil
  · rintro u v ⟨i, hi, _⟩
    cases hi
  · intro v hv
    cases hv
  · rintro u v ⟨i, hi, _⟩
    cases hi
  · intro v hv
    cases hv
  · intro v hv
    cases hv
  · intro v hv
    cases hv
  · intro n hn
    rw [List.mem_singleton] at hn
    subst hn
    exact ⟨rfl, Finset.mem_singleton_self t, Or.inr ⟨rfl, rfl⟩⟩
  · exact Or.inl rfl
  · intro v hv
    cases hv

theorem get_type_graph_inv {env : TypeEnv} {t : Desc} {fuel : Nat}
    {g : List NodeInfo} (hsc : ScalarStdlib env)
    (h : get_type_graph env fuel t = some g) :
    (∃ visited, BuildInv env ⟨t, none, false⟩ g [] visited) ∧
      (⟨t, none, false⟩ : TypeNode) ∈ keysOf g := by
  constructor
  · exact buildLoop_inv hsc fuel [] [⟨t, none, false⟩] {t} g
      (buildInv_init env t) h
  · cases fuel with
    | zero => exact Option.noConfusion h
    | succ fuel =>
      have heq2 : buildLoop env fuel
          (graphAdd [] ⟨t, none, false⟩
            (processLevel env {t} (_level env t)).preds)
          ([] ++ (processLevel env {t} (_level env t)).pushed)
          (processLevel env {t} (_level env t)).visited = some g := h
      have hpre := buildLoop_keys_front fuel _ _ _ _ heq2
      rcases hpre with ⟨tl, htl⟩
      rw [← htl]
      have : (⟨t, none, false⟩ : TypeNode) ∈ keysOf
          (graphAdd [] ⟨t, none, false⟩
            (processLevel env {t} (_level env t)).preds) :=
        mem_keysOf_graphAdd.mpr (Or.inr (Or.inl rfl))
      exact List.mem_append.mpr (Or.inl this)

theorem sorterWF_rank {env : TypeEnv} {g : List NodeInfo}
    (wf : SorterWF env g) :
    ∃ r : TypeNode → Nat, ∀ u v, EdgeStep g u v → r u < r v := by
  refine ⟨fun n => if isTerminal env n = true then 0
    else (keysOf g).length - idxOf n (keysOf g), ?_⟩
  intro u v he
  rcases wf.acy u v he with ⟨⟨hlev, hcyc⟩, hu⟩
  have hvterm : isTerminal env v = false := by
    rw [isTerminal, hlev, hcyc]
    rfl
  have hvnt : ¬(isTerminal env v = true) := by
    rw [hvterm]
    exact Bool.false_ne_true
  have hvk : v ∈ keysOf g := wf.closed u v he
  have hvlt : idxOf v (keysOf g) < (keysOf g).length := idxOf_lt_length hvk
  show _ < (if isTerminal env v = true then 0
    else (keysOf g).length - idxOf v (keysOf g))
  rw [if_neg hvnt]
  show (if isTerminal env u = true then 0
    else (keysOf g).length - idxOf u (keysOf g)) < _
  by_cases h2 : isTerminal env u = true
  · rw [if_pos h2]
    omega
  · rw [if_neg h2]
    have huk : u ∈ keysOf g := edgeStep_src_mem he
    have hult := idxOf_lt_length huk
    rcases hu with h3 | h3
    · exact absurd h3 h2
    · omega

/-! ## Lemmas: termination of the build loop -/

theorem stackWeight_append (env : TypeEnv) (s1 s2 : List TypeNode) :
    stackWeight env (s1 ++ s2) = stackWeight env s1 + stackWeight env s2 := by
  rw [stackWeight, List.map_append, List.sum_append]
  rfl

theorem stackWeight_cons (env : TypeEnv) (n : TypeNode) (s : List TypeNode) :
    stackWeight env (n :: s) = nodeWeight env n + stackWeight env s := by
  rw [stackWeight, List.map_cons, List.sum_cons]
  rfl

theorem weightSum_cons (env : TypeEnv) (p : Option String × Desc)
    (l : List (Option String × Desc)) :
    weightSum env (p :: l) =
      (1 + (_level env p.2).length) + weightSum env l := by
  rw [weightSum, List.map_cons, List.sum_cons]
  rfl

theorem processPairs_T {env : TypeEnv} {univ : Finset Desc}
    (hsc : ScalarStdlib env) :
    ∀ (l : List (Option String × Desc)) (acc : BuildAcc),
      acc.visited ⊆ univ → (∀ p ∈ l, p.2 ∈ univ) →
      (∀ n ∈ acc.pushed, n.type ∈ univ) →
      acc.visited ⊆ (l.foldl (processPair env) acc).visited ∧
        (l.foldl (processPair env) acc).visited ⊆ univ ∧
        (∀ n ∈ (l.foldl (processPair env) acc).pushed, n.type ∈ univ) ∧
        stackWeight env (l.foldl (processPair env) acc).pushed ≤
          stackWeight env acc.pushed + weightSum env l ∧
        ((l.foldl (processPair env) acc).visited = acc.visited →
          stackWeight env (l.foldl (processPair env) acc).pushed ≤
            stackWeight env acc.pushed + l.length) := by
  intro l
  induction l with
  | nil =>
    intro acc hv _ hp
    rw [List.foldl_nil]
    have hws : weightSum env ([] : List (Option String × Desc)) = 0 := rfl
    refine ⟨fun d hd => hd, hv, hp, by omega, fun _ => by omega⟩
  | cons p ps ih =>
    intro acc hv hl hp
    obtain ⟨var, child⟩ := p
    rw [List.foldl_cons, weightSum_cons, List.length_cons]
    have hsnd : ((var, child) : Option String × Desc).2 = child := rfl
    rw [hsnd]
    by_cases hany : child = Desc.anyTy
    · subst hany
      rw [processPair_skip]
      have hres := ih acc hv (fun q hq => hl q (List.mem_cons_of_mem _ hq)) hp
      refine ⟨hres.1, hres.2.1, hres.2.2.1, by
        have := hres.2.2.2.1
        omega, fun he => by
        have := hres.2.2.2.2 he
        omega⟩
    · have hcu : child ∈ univ := hl (var, child) (List.mem_cons_self _ _)
      by_cases hc : child ∈ acc.visited ∧
          (issubscriptedgeneric env child || !isstdlibtype env child) = true
      · rw [processPair_cyclic env acc var child hany hc]
        set acc2 : BuildAcc := { acc with preds := acc.preds ++
            [⟨forwardref (get_qualname env child) var.isSome
                (get_module env child) (isclass env child), var, true⟩] }
          with hacc2
        have hv2 : acc2.visited ⊆ univ := hv
        have hp2 : ∀ n ∈ acc2.pushed, n.type ∈ univ := hp
        have hres := ih acc2 hv2 (fun q hq => hl q (List.mem_cons_of_mem _ hq)) hp2
        have hpp : stackWeight env acc2.pushed = stackWeight env acc.pushed := rfl
        refine ⟨hres.1, hres.2.1, hres.2.2.1, by
          have := hres.2.2.2.1
          omega, fun he => by
          have := hres.2.2.2.2 he
          omega⟩
      · rw [processPair_else env acc var child hany hc]
        set acc1 : BuildAcc := ⟨acc.preds ++ [⟨child, var, false⟩],
          insert child acc.visited,
          acc.pushed ++ [⟨child, var, false⟩]⟩ with hacc1
        have hv1 : acc1.visited ⊆ univ := by
          intro d hd
          rcases Finset.mem_insert.mp hd with h1 | h1
          · exact h1 ▸ hcu
          · exact hv h1
        have hp1 : ∀ n ∈ acc1.pushed, n.type ∈ univ := by
          intro n hn
          rcases List.mem_append.mp hn with h1 | h1
          · exact hp n h1
          · rw [List.mem_singleton] at h1
            subst h1
            exact hcu
        have hres := ih acc1 hv1 (fun q hq => hl q (List.mem_cons_of_mem _ hq)) hp1
        have hw1 : stackWeight env acc1.pushed
            = stackWeight env acc.pushed + (1 + (_level env child).length) := by
          show stackWeight env (acc.pushed ++ [⟨child, var, false⟩]) = _
          rw [stackWeight_append]
          have : stackWeight env [(⟨child, var, false⟩ : TypeNode)]
              = nodeWeight env ⟨child, var, false⟩ := by
            rw [stackWeight_cons, stackWeight]
            show nodeWeight env _ + 0 = _
            omega
          rw [this]
          rfl
        refine ⟨?_, hres.2.1, hres.2.2.1, by
          have h2 := hres.2.2.2.1
          rw [hw1] at h2
          omega, ?_⟩
        · intro d hd
          exact hres.1 (Finset.mem_insert_of_mem hd)
        · intro he
          have hins : child ∈ acc.visited := by
            have hcm := hres.1 (Finset.mem_insert_self child acc.visited)
            rw [he] at hcm
            exact hcm
          have hncap : (issubscriptedgeneric env child ||
              !isstdlibtype env child) = false := by
            cases hb : (issubscriptedgeneric env child || !isstdlibtype env child)
            · rfl
            · exact absurd ⟨hins, hb⟩ hc
          have hlev := level_empty_of_not_cyclic hsc hncap
          have heq2 : (ps.foldl (processPair env) acc1).visited = acc1.visited := by
            refine Finset.Subset.antisymm ?_ hres.1
            rw [he]
            intro d hd
            exact Finset.mem_insert_of_mem hd
          have h2 := hres.2.2.2.2 heq2
          rw [hw1, hlev] at h2
          show stackWeight env _ ≤ stackWeight env acc.pushed + (ps.length + 1)
          have h3 : (([] : List (Option String × Desc))).length = 0 := rfl
          omega

theorem buildMeasure_step {env : TypeEnv} {univ : Finset Desc}
    (hsc : ScalarStdlib env) (hlc : LevelClosed env univ)
    {parent : TypeNode} {rest : List TypeNode} {visited : Finset Desc}
    (hp : parent.type ∈ univ) (hv : visited ⊆ univ)
    (hstack : ∀ n ∈ rest, n.type ∈ univ) :
    (processLevel env visited (_level env parent.type)).visited ⊆ univ ∧
      (∀ n ∈ rest ++ (processLevel env visited (_level env parent.type)).pushed,
        n.type ∈ univ) ∧
      buildMeasure env univ
          (processLevel env visited (_level env parent.type)).visited
          (rest ++ (processLevel env visited (_level env parent.type)).pushed) <
        buildMeasure env univ visited (parent :: rest) := by
  have hchildren : ∀ p ∈ _level env parent.type, p.2 ∈ univ :=
    fun p hp2 => hlc parent.type hp p hp2
  have hinit : (⟨[], visited, []⟩ : BuildAcc).visited ⊆ univ := hv
  have hinitp : ∀ n ∈ (⟨[], visited, []⟩ : BuildAcc).pushed, n.type ∈ univ :=
    fun n hn => absurd hn (List.not_mem_nil n)
  have hT := processPairs_T hsc (_level env parent.type)
    ⟨[], visited, []⟩ hinit hchildren hinitp
  set acc := processLevel env visited (_level env parent.type) with hacc
  have hT1 : visited ⊆ acc.visited := hT.1
  have hT2 : acc.visited ⊆ univ := hT.2.1
  have hT3 : ∀ n ∈ acc.pushed, n.type ∈ univ := hT.2.2.1
  have hT4 : stackWeight env acc.pushed ≤
      stackWeight env ([] : List TypeNode) +
        weightSum env (_level env parent.type) := hT.2.2.2.1
  have hT5 : acc.visited = visited →
      stackWeight env acc.pushed ≤ stackWeight env ([] : List TypeNode) +
        (_level env parent.type).length := hT.2.2.2.2
  have hz : stackWeight env ([] : List TypeNode) = 0 := rfl
  rw [hz] at hT4 hT5
  refine ⟨hT2, ?_, ?_⟩
  · intro n hn
    rcases List.mem_append.mp hn with h1 | h1
    · exact hstack n h1
    · exact hT3 n h1
  · rw [buildMeasure, buildMeasure, stackWeight_append, stackWeight_cons]
    have hWB : weightSum env (_level env parent.type) ≤ levelBound env univ := by
      rw [levelBound]
      exact @Finset.le_sup Nat Desc _ _ univ
        (fun d => weightSum env (_level env d)) parent.type hp
    have hnw : nodeWeight env parent = 1 + (_level env parent.type).length := rfl
    by_cases hveq : acc.visited = visited
    · rw [hveq]
      have h5 := hT5 hveq
      rw [hnw]
      omega
    · have hss : visited ⊂ acc.visited := ⟨hT1, fun hc =>
        hveq (Finset.Subset.antisymm (fun d hd => hc hd) hT1)⟩
      have hlt : visited.card < acc.visited.card := Finset.card_lt_card hss
      have hle : acc.visited.card ≤ univ.card := Finset.card_le_card hT2
      have hmul : (univ.card - acc.visited.card) * (levelBound env univ + 1) +
          (levelBound env univ + 1) ≤
          (univ.card - visited.card) * (levelBound env univ + 1) := by
        have h1 : univ.card - acc.visited.card + 1 ≤ univ.card - visited.card := by
          omega
        have h2 := Nat.mul_le_mul_right (levelBound env univ + 1) h1
        rw [Nat.add_mul, Nat.one_mul] at h2
        exact h2
      rw [hnw]
      omega

theorem buildLoop_terminates {env : TypeEnv} {univ : Finset Desc}
    (hsc : ScalarStdlib env) (hlc : LevelClosed env univ) :
    ∀ (m : Nat) (g : List NodeInfo) (stack : List TypeNode)
      (visited : Finset Desc), visited ⊆ univ →
      (∀ n ∈ stack, n.type ∈ univ) →
      buildMeasure env univ visited stack ≤ m →
      ∃ gOut, buildLoop env (m + 1) g stack visited = some gOut := by
  intro m
  induction m with
  | zero =>
    intro g stack visited hv hs hm
    cases stack with
    | nil => exact ⟨g, rfl⟩
    | cons p rest =>
      exfalso
      rw [buildMeasure, stackWeight_cons] at hm
      have h1 : 1 ≤ nodeWeight env p := by
        rw [nodeWeight]
        omega
      omega
  | succ m ih =>
    intro g stack visited hv hs hm
    cases stack with
    | nil => exact ⟨g, rfl⟩
    | cons parent rest =>
      have hp : parent.type ∈ univ := (hs parent (List.mem_cons_self _ _))
      have hrest : ∀ n ∈ rest, n.type ∈ univ :=
        fun n hn => hs n (List.mem_cons_of_mem parent hn)
      have hstep := buildMeasure_step hsc hlc hp hv hrest
      have hm2 : buildMeasure env univ
          (processLevel env visited (_level env parent.type)).visited
          (rest ++ (processLevel env visited (_level env parent.type)).pushed)
          ≤ m := by
        have := hstep.2.2
        omega
      exact ih (graphAdd g parent
          (processLevel env visited (_level env parent.type)).preds)
        (rest ++ (processLevel env visited (_level env parent.type)).pushed)
        (processLevel env visited (_level env parent.type)).visited
        hstep.1 hstep.2.1 hm2

theorem get_type_graph_terminates {env : TypeEnv} {univ : Finset Desc}
    {t : Desc} (hsc : ScalarStdlib env) (hlc : LevelClosed env univ)
    (ht : t ∈ univ) :
    ∃ fuel g, get_type_graph env fuel t = some g := by
  have hv : ({t} : Finset Desc) ⊆ univ := Finset.singleton_subset_iff.mpr ht
  have hs : ∀ n ∈ [(⟨t, none, false⟩ : TypeNode)], n.type ∈ univ := by
    intro n hn
    rw [List.mem_singleton] at hn
    subst hn
    exact ht
  rcases buildLoop_terminates hsc hlc
      (buildMeasure env univ {t} [⟨t, none, false⟩]) [] _ _ hv hs le_rfl with
    ⟨gOut, hgo⟩
  exact ⟨buildMeasure env univ {t} [⟨t, none, false⟩] + 1, gOut, hgo⟩

/-! ## The combined specification of a built graph and its ordering -/

theorem reaches_idx_lt {g : List NodeInfo} {out : List TypeNode}
    (hedges : ∀ u v, EdgeStep g u v → idxOf u out < idxOf v out) :
    ∀ a b, Reaches g a b → a = b ∨ idxOf a out < idxOf b out := by
  intro a b h
  induction h using Relation.ReflTransGen.head_induction_on with
  | refl => exact Or.inl rfl
  | head h1 h2 ih =>
    right
    have ha := hedges _ _ h1
    rcases ih with h3 | h3
    · rw [h3] at ha
      exact ha
    · exact lt_trans ha h3

theorem typeGraph_order_spec {env : TypeEnv} {t : Desc} {fuel : Nat}
    {g : List NodeInfo} (hsc : ScalarStdlib env)
    (h : get_type_graph env fuel t = some g) :
    (∀ v, v ∈ staticOrder g ↔ v ∈ keysOf g) ∧ (staticOrder g).Nodup ∧
      (∀ u v, EdgeStep g u v →
        idxOf u (staticOrder g) < idxOf v (staticOrder g)) ∧
      (staticOrder g).getLast? = some ⟨t, none, false⟩ := by
  obtain ⟨⟨visited, inv⟩, hroot⟩ := get_type_graph_inv hsc h
  have wf := inv.wf
  have hcons : ∀ i ∈ g, i.npred = indeg g [] i.node := by
    intro i hi
    have hk : i.node ∈ keysOf g := mem_keysOf.mpr ⟨i, hi, rfl⟩
    have h2 := wf.consistent i.node hk
    rw [npredOf_of_mem wf.nodupKeys hi] at h2
    exact h2
  obtain ⟨r, hr⟩ := sorterWF_rank wf
  obtain ⟨hiff, hnodup, hedges⟩ :=
    staticOrder_spec wf.nodupKeys wf.closed hcons r hr
  refine ⟨hiff, hnodup, hedges, ?_⟩
  have hrootout : (⟨t, none, false⟩ : TypeNode) ∈ staticOrder g :=
    (hiff _).mpr hroot
  have hmax : ∀ y ∈ staticOrder g, y ≠ (⟨t, none, false⟩ : TypeNode) →
      idxOf y (staticOrder g) < idxOf ⟨t, none, false⟩ (staticOrder g) := by
    intro y hy hne
    have hyk : y ∈ keysOf g := (hiff y).mp hy
    have hreach : Reaches g y ⟨t, none, false⟩ := inv.reach y hyk
    exact (reaches_idx_lt hedges y _ hreach).resolve_left hne
  exact idxOf_getLast hnodup hrootout hmax

/-! ## Helper facts about the example environments -/

theorem pairEnv_scalar : ScalarStdlib pairEnv :=
  fun i => match i with
  | 0 => fun h1 _ => Bool.noConfusion h1
  | 1 => fun _ h2 => List.noConfusion h2
  | _ + 2 => fun h1 _ => Bool.noConfusion h1

theorem recEnv_scalar : ScalarStdlib recEnv :=
  fun i => match i with
  | 0 => fun h1 _ => Bool.noConfusion h1
  | 1 => fun _ h2 => List.noConfusion h2
  | _ + 2 => fun h1 _ => Bool.noConfusion h1

theorem pair2Env_scalar : ScalarStdlib pair2Env :=
  fun i => match i with
  | 0 => fun h1 _ => Bool.noConfusion h1
  | _ + 1 => fun h1 _ => Bool.noConfusion h1

/-! ## The claims -/

/-- C1: for every root type descriptor, however deeply self-referential
(directly or through any number of intermediate types), the public ordering
operation terminates: the breadth-first build loop of `get_type_graph`
drains its queue within a finite fuel budget, and
`static_order`/`itertypes` return a finite sequence of TypeNodes.  The
hypotheses state the (always true in Python) finiteness of the descriptor
object graph and the spec's taxonomy fact that non-subscripted stdlib types
are plain scalars with an empty level. -/
theorem claim_C1 (env : TypeEnv) (univ : Finset Desc) (t : Desc)
    (hsc : ScalarStdlib env) (hlc : LevelClosed env univ) (ht : t ∈ univ) :
    ∃ fuel out, static_order env fuel t = some out := by
  obtain ⟨fuel, g, hg⟩ := get_type_graph_terminates hsc hlc ht
  refine ⟨fuel, staticOrder g, ?_⟩
  rw [static_order, itertypes, hg]
  rfl

/-- Witness for C1 at the deeply self-referential
`Node { value: int, next: Optional[Node] }`. -/
theorem claim_C1_witness :
    ∃ fuel out, static_order recEnv fuel (Desc.comp 0) = some out :=
  claim_C1 recEnv {Desc.comp 0, Desc.comp 1, Desc.prim "int"} (Desc.comp 0)
    recEnv_scalar (by unfold LevelClosed; decide) (by decide)

/-- C2: for every graph produced by the builder and every dependency edge
recorded in it (`parent` depends on predecessor `u`), the predecessor's
index in the Ordered Result returned by `static_order`/`itertypes` is
strictly less than the parent's index. -/
theorem claim_C2 (env : TypeEnv) (fuel : Nat) (t : Desc) (g : List NodeInfo)
    (out : List TypeNode) (hsc : ScalarStdlib env)
    (hg : get_type_graph env fuel t = some g)
    (hout : itertypes env fuel t = some out) :
    ∀ u v, EdgeStep g u v → u ∈ out ∧ v ∈ out ∧ idxOf u out < idxOf v out := by
  have hout2 : out = staticOrder g := by
    rw [itertypes, hg] at hout
    exact (Option.some.inj hout).symm
  subst hout2
  obtain ⟨hiff, hnodup, hedges, hlast⟩ := typeGraph_order_spec hsc hg
  intro u v he
  refine ⟨(hiff u).mpr (edgeStep_src_mem he), (hiff v).mpr ?_, hedges u v he⟩
  obtain ⟨⟨visited, inv⟩, _⟩ := get_type_graph_inv hsc hg
  exact inv.wf.closed u v he

/-- Witness for C2 at the `Pair { a: int, b: list[str] }` scenario: the
edge from the `int` predecessor to the `Pair` root is ordered. -/
theorem claim_C2_witness :
    (⟨Desc.prim "int", some "a", false⟩ : TypeNode) ∈
        [(⟨Desc.prim "int", some "a", false⟩ : TypeNode),
          ⟨Desc.prim "str", none, false⟩, ⟨Desc.comp 1, some "b", false⟩,
          ⟨Desc.comp 0, none, false⟩] ∧
      (⟨Desc.comp 0, none, false⟩ : TypeNode) ∈
        [(⟨Desc.prim "int", some "a", false⟩ : TypeNode),
          ⟨Desc.prim "str", none, false⟩, ⟨Desc.comp 1, some "b", false⟩,
          ⟨Desc.comp 0, none, false⟩] ∧
      idxOf ⟨Desc.prim "int", some "a", false⟩
          [(⟨Desc.prim "int", some "a", false⟩ : TypeNode),
            ⟨Desc.prim "str", none, false⟩, ⟨Desc.comp 1, some "b", false⟩,
            ⟨Desc.comp 0, none, false⟩] <
        idxOf ⟨Desc.comp 0, none, false⟩
          [(⟨Desc.prim "int", some "a", false⟩ : TypeNode),
            ⟨Desc.prim "str", none, false⟩, ⟨Desc.comp 1, some "b", false⟩,
            ⟨Desc.comp 0, none, false⟩] :=
  claim_C2 pairEnv 10 (Desc.comp 0)
    [⟨⟨Desc.comp 0, none, false⟩, 2, []⟩,
      ⟨⟨Desc.prim "int", some "a", false⟩, 0, [⟨Desc.comp 0, none, false⟩]⟩,
      ⟨⟨Desc.comp 1, some "b", false⟩, 1, [⟨Desc.comp 0, none, false⟩]⟩,
      ⟨⟨Desc.prim "str", none, false⟩, 0, [⟨Desc.comp 1, some "b", false⟩]⟩]
    [⟨Desc.prim "int", some "a", false⟩, ⟨Desc.prim "str", none, false⟩,
      ⟨Desc.comp 1, some "b", false⟩, ⟨Desc.comp 0, none, false⟩]
    pairEnv_scalar (by decide) (by decide)
    ⟨Desc.prim "int", some "a", false⟩ ⟨Desc.comp 0, none, false⟩
    (by unfold EdgeStep; decide)

/-- C3: for every concrete root type descriptor, the node for the root is
the final element of the Ordered Result returned by
`static_order`/`itertypes`. -/
theorem claim_C3 (env : TypeEnv) (fuel : Nat) (t : Desc)
    (out : List TypeNode) (hsc : ScalarStdlib env)
    (hout : itertypes env fuel t = some out) :
    out.getLast? = some ⟨t, none, false⟩ := by
  rw [itertypes] at hout
  cases hg : get_type_graph env fuel t with
  | none =>
    rw [hg] at hout
    exact Option.noConfusion hout
  | some g =>
    rw [hg] at hout
    have h2 : staticOrder g = out := Option.some.inj hout
    rw [← h2]
    exact (typeGraph_order_spec hsc hg).2.2.2

/-- Witness for C3 at the `Pair { a: int, b: list[str] }` scenario. -/
theorem claim_C3_witness :
    ([(⟨Desc.prim "int", some "a", false⟩ : TypeNode),
      ⟨Desc.prim "str", none, false⟩, ⟨Desc.comp 1, some "b", false⟩,
      ⟨Desc.comp 0, none, false⟩]).getLast? =
      some ⟨Desc.comp 0, none, false⟩ :=
  claim_C3 pairEnv 10 (Desc.comp 0)
    [⟨Desc.prim "int", some "a", false⟩, ⟨Desc.prim "str", none, false⟩,
      ⟨Desc.comp 1, some "b", false⟩, ⟨Desc.comp 0, none, false⟩]
    pairEnv_scalar (by decide)

/-- C4: a cyclic placeholder (cyclic=true, descriptor rebuilt as a forward
reference) is created exactly when the child is already visited and is
cyclic-capable (subscripted generic or non-stdlib); the placeholder is not
pushed onto the queue, and in every finished graph a cyclic node has zero
predecessor edges. -/
theorem claim_C4 (env : TypeEnv) :
    (∀ (acc : BuildAcc) (var : Option String) (child : Desc),
      child ≠ Desc.anyTy →
      ((child ∈ acc.visited ∧
          (issubscriptedgeneric env child || !isstdlibtype env child) = true →
        processPair env acc (var, child) =
          { acc with preds := acc.preds ++
              [⟨forwardref (get_qualname env child) var.isSome
                  (get_module env child) (isclass env child), var, true⟩] }) ∧
       (¬(child ∈ acc.visited ∧
          (issubscriptedgeneric env child || !isstdlibtype env child) = true) →
        processPair env acc (var, child) =
          { preds := acc.preds ++ [⟨child, var, false⟩]
            visited := insert child acc.visited
            pushed := acc.pushed ++ [⟨child, var, false⟩] }))) ∧
    (∀ (fuel : Nat) (t : Desc) (g : List NodeInfo), ScalarStdlib env →
      get_type_graph env fuel t = some g →
      ∀ v ∈ keysOf g, v.cyclic = true → npredOf g v = 0) := by
  constructor
  · intro acc var child hne
    exact ⟨processPair_cyclic env acc var child hne,
      processPair_else env acc var child hne⟩
  · intro fuel t g hsc hg
    obtain ⟨⟨visited, inv⟩, _⟩ := get_type_graph_inv hsc hg
    exact inv.cyc.nopred

/-- Witness for C4 at the recursive `Node` scenario: the revisited root
becomes a forward-reference placeholder, is not pushed, and has no
predecessors in the finished graph. -/
theorem claim_C4_witness :
    processPair recEnv ⟨[], {Desc.comp 0}, []⟩ (none, Desc.comp 0) =
      ⟨[⟨Desc.ref "Node" false (some "m") true, none, true⟩],
        {Desc.comp 0}, []⟩ ∧
    npredOf
      [⟨⟨Desc.comp 0, none, false⟩, 2, []⟩,
        ⟨⟨Desc.prim "int", some "value", false⟩, 0,
          [⟨Desc.comp 0, none, false⟩]⟩,
        ⟨⟨Desc.comp 1, some "next", false⟩, 1,
          [⟨Desc.comp 0, none, false⟩]⟩,
        ⟨⟨Desc.ref "Node" false (some "m") true, none, true⟩, 0,
          [⟨Desc.comp 1, some "next", false⟩]⟩]
      ⟨Desc.ref "Node" false (some "m") true, none, true⟩ = 0 := by
  constructor
  · have h := ((claim_C4 recEnv).1 ⟨[], {Desc.comp 0}, []⟩ none (Desc.comp 0)
      (by decide)).1 ⟨by decide, by decide⟩
    rw [h]
    rfl
  · exact (claim_C4 recEnv).2 10 (Desc.comp 0)
      [⟨⟨Desc.comp 0, none, false⟩, 2, []⟩,
        ⟨⟨Desc.prim "int", some "value", false⟩, 0,
          [⟨Desc.comp 0, none, false⟩]⟩,
        ⟨⟨Desc.comp 1, some "next", false⟩, 1,
          [⟨Desc.comp 0, none, false⟩]⟩,
        ⟨⟨Desc.ref "Node" false (some "m") true, none, true⟩, 0,
          [⟨Desc.comp 1, some "next", false⟩]⟩]
      recEnv_scalar (by decide)
      ⟨Desc.ref "Node" false (some "m") true, none, true⟩ (by decide) rfl

/-- C5: no node whose descriptor is a plain primitive type is ever created
with cyclic=true, in any finished graph: cyclic nodes always carry a
rebuilt forward-reference descriptor, never a primitive one. -/
theorem claim_C5 (env : TypeEnv) (fuel : Nat) (t : Desc) (g : List NodeInfo)
    (hsc : ScalarStdlib env) (hg : get_type_graph env fuel t = some g) :
    ∀ v ∈ keysOf g, v.type.isPrim = true → v.cyclic = false := by
  intro v hv hp
  obtain ⟨⟨visited, inv⟩, _⟩ := get_type_graph_inv hsc hg
  cases hc : v.cyclic with
  | false => rfl
  | true =>
    obtain ⟨nm, m, c, hform⟩ := inv.cyc.refForm v hv hc
    rw [hform] at hp
    exact Bool.noConfusion hp

/-- Witness for C5 at `Pair2 { a: int, b: int }`: the primitive `int`
descriptor recurs under two labels, yet neither node is cyclic. -/
theorem claim_C5_witness :
    get_type_graph pair2Env 10 (Desc.comp 0) = some
      [⟨⟨Desc.comp 0, none, false⟩, 2, []⟩,
        ⟨⟨Desc.prim "int", some "a", false⟩, 0,
          [⟨Desc.comp 0, none, false⟩]⟩,
        ⟨⟨Desc.prim "int", some "b", false⟩, 0,
          [⟨Desc.comp 0, none, false⟩]⟩] ∧
    (⟨Desc.prim "int", some "b", false⟩ : TypeNode).cyclic = false :=
  ⟨by decide, claim_C5 pair2Env 10 (Desc.comp 0)
    [⟨⟨Desc.comp 0, none, false⟩, 2, []⟩,
      ⟨⟨Desc.prim "int", some "a", false⟩, 0,
        [⟨Desc.comp 0, none, false⟩]⟩,
      ⟨⟨Desc.prim "int", some "b", false⟩, 0,
        [⟨Desc.comp 0, none, false⟩]⟩]
    pair2Env_scalar (by decide)
    ⟨Desc.prim "int", some "b", false⟩ (by decide) rfl⟩

/-- C6 counterexample: in the graph for `Node { value: int, next:
Optional[Node] }`, the cyclic placeholder arises from a *generic argument*
occurrence (label absent, `var = none`), yet its forward-reference
descriptor carries `is_argument = false` — refuting the claim that the
flag is true iff the field label is absent.  The code sets
`is_argument = (var is not None)`, the opposite polarity. -/
theorem claim_C6_counterexample :
    get_type_graph recEnv 10 (Desc.comp 0) = some
      [⟨⟨Desc.comp 0, none, false⟩, 2, []⟩,
        ⟨⟨Desc.prim "int", some "value", false⟩, 0,
          [⟨Desc.comp 0, none, false⟩]⟩,
        ⟨⟨Desc.comp 1, some "next", false⟩, 1,
          [⟨Desc.comp 0, none, false⟩]⟩,
        ⟨⟨Desc.ref "Node" false (some "m") true, none, true⟩, 0,
          [⟨Desc.comp 1, some "next", false⟩]⟩] ∧
    ¬(∀ v ∈ keysOf
        [⟨⟨Desc.comp 0, none, false⟩, 2, []⟩,
          ⟨⟨Desc.prim "int", some "value", false⟩, 0,
            [⟨Desc.comp 0, none, false⟩]⟩,
          ⟨⟨Desc.comp 1, some "next", false⟩, 1,
            [⟨Desc.comp 0, none, false⟩]⟩,
          ⟨⟨Desc.ref "Node" false (some "m") true, none, true⟩, 0,
            [⟨Desc.comp 1, some "next", false⟩]⟩],
        v.cyclic = true → (refIsArg v.type = true ↔ v.var = none)) := by
  constructor
  · decide
  · decide

/-- C6 (amended): when a cycle is detected and a placeholder
forward-reference descriptor is rebuilt, its is-argument-position flag is
true iff the field label is *present* (`is_argument = (var is not None)`) —
the polarity opposite to the claim's. -/
theorem claim_C6 (env : TypeEnv) (fuel : Nat) (t : Desc) (g : List NodeInfo)
    (hsc : ScalarStdlib env) (hg : get_type_graph env fuel t = some g) :
    ∀ v ∈ keysOf g, v.cyclic = true → refIsArg v.type = v.var.isSome := by
  intro v hv hc
  obtain ⟨⟨visited, inv⟩, _⟩ := get_type_graph_inv hsc hg
  obtain ⟨nm, m, c, hform⟩ := inv.cyc.refForm v hv hc
  rw [hform]
  rfl

/-- Witness for the amended C6 at the recursive `Node` scenario. -/
theorem claim_C6_witness :
    refIsArg (⟨Desc.ref "Node" false (some "m") true, none, true⟩
        : TypeNode).type =
      (⟨Desc.ref "Node" false (some "m") true, none, true⟩
        : TypeNode).var.isSome :=
  claim_C6 recEnv 10 (Desc.comp 0)
    [⟨⟨Desc.comp 0, none, false⟩, 2, []⟩,
      ⟨⟨Desc.prim "int", some "value", false⟩, 0,
        [⟨Desc.comp 0, none, false⟩]⟩,
      ⟨⟨Desc.comp 1, some "next", false⟩, 1,
        [⟨Desc.comp 0, none, false⟩]⟩,
      ⟨⟨Desc.ref "Node" false (some "m") true, none, true⟩, 0,
        [⟨Desc.comp 1, some "next", false⟩]⟩]
    recEnv_scalar (by decide)
    ⟨Desc.ref "Node" false (some "m") true, none, true⟩ (by decide) rfl

/-- C7: once a call to the cached `static_order` has produced an Ordered
Result, a second call with the same root descriptor returns the
structurally identical result and performs no graph construction work
(the work flag of the modelled cache is `false`, i.e. neither the builder
nor the orderer runs again), leaving the cache unchanged. -/
theorem claim_C7 (env : TypeEnv) (fuel : Nat)
    (cache : List (Desc × List TypeNode)) (t : Desc) (out : List TypeNode)
    (h : (static_order_cached env fuel cache t).1 = some out) :
    static_order_cached env fuel (static_order_cached env fuel cache t).2.1
        t =
      (some out, (static_order_cached env fuel cache t).2.1, false) := by
  have key : ∀ (c2 : List (Desc × List TypeNode)) (r : List TypeNode),
      cacheLookup c2 t = some r →
      static_order_cached env fuel c2 t = (some r, c2, false) := by
    intro c2 r hl
    unfold static_order_cached
    rw [hl]
  cases hl : cacheLookup cache t with
  | some r =>
    have h1 := key cache r hl
    rw [h1] at h ⊢
    have h2 : r = out := Option.some.inj h
    subst h2
    exact key cache r hl
  | none =>
    cases hs : static_order env fuel t with
    | none =>
      have h1 : static_order_cached env fuel cache t = (none, cache, true) := by
        unfold static_order_cached
        rw [hl, hs]
      rw [h1] at h
      exact Option.noConfusion h
    | some r =>
      have h1 : static_order_cached env fuel cache t =
          (some r, (t, r) :: cache, true) := by
        unfold static_order_cached
        rw [hl, hs]
      rw [h1] at h ⊢
      have h2 : r = out := Option.some.inj h
      subst h2
      refine key ((t, r) :: cache) r ?_
      show (if t = t then some r else cacheLookup cache t) = some r
      rw [if_pos rfl]

/-- Witness for C7 at the `Pair` scenario starting from an empty cache. -/
theorem claim_C7_witness :
    static_order_cached pairEnv 10
        (static_order_cached pairEnv 10 [] (Desc.comp 0)).2.1 (Desc.comp 0) =
      (some [⟨Desc.prim "int", some "a", false⟩,
          ⟨Desc.prim "str", none, false⟩, ⟨Desc.comp 1, some "b", false⟩,
          ⟨Desc.comp 0, none, false⟩],
        (static_order_cached pairEnv 10 [] (Desc.comp 0)).2.1, false) :=
  claim_C7 pairEnv 10 [] (Desc.comp 0)
    [⟨Desc.prim "int", some "a", false⟩, ⟨Desc.prim "str", none, false⟩,
      ⟨Desc.comp 1, some "b", false⟩, ⟨Desc.comp 0, none, false⟩]
    (by decide)

/-- C8: for the root `Pair { a: int, b: list[str] }` (members in that
declaration order), the Ordered Result is exactly: the `int` node, then
the `str` node (the generic's argument), then the `list[str]` node, then
the `Pair` root node. -/
theorem claim_C8 :
    static_order pairEnv 10 (Desc.comp 0) =
      some [⟨Desc.prim "int", some "a", false⟩,
        ⟨Desc.prim "str", none, false⟩, ⟨Desc.comp 1, some "b", false⟩,
        ⟨Desc.comp 0, none, false⟩] := by
  decide

/-- C9 counterexample: in the graph for `Pair2 { a: int, b: int }` the two
occurrences of the identity-equal primitive descriptor `int` under labels
`a` and `b` are *distinct* vertices of the graph's node map — refuting the
claim that the node map is keyed on the descriptor alone.  (Only the
visited set is keyed on the bare descriptor; graphlib's node map keys on
the full TypeNode, whose equality includes the field label.) -/
theorem claim_C9_counterexample :
    get_type_graph pair2Env 10 (Desc.comp 0) = some
      [⟨⟨Desc.comp 0, none, false⟩, 2, []⟩,
        ⟨⟨Desc.prim "int", some "a", false⟩, 0,
          [⟨Desc.comp 0, none, false⟩]⟩,
        ⟨⟨Desc.prim "int", some "b", false⟩, 0,
          [⟨Desc.comp 0, none, false⟩]⟩] ∧
    (⟨Desc.prim "int", some "a", false⟩ : TypeNode) ∈ keysOf
      [⟨⟨Desc.comp 0, none, false⟩, 2, []⟩,
        ⟨⟨Desc.prim "int", some "a", false⟩, 0,
          [⟨Desc.comp 0, none, false⟩]⟩,
        ⟨⟨Desc.prim "int", some "b", false⟩, 0,
          [⟨Desc.comp 0, none, false⟩]⟩] ∧
    (⟨Desc.prim "int", some "b", false⟩ : TypeNode) ∈ keysOf
      [⟨⟨Desc.comp 0, none, false⟩, 2, []⟩,
        ⟨⟨Desc.prim "int", some "a", false⟩, 0,
          [⟨Desc.comp 0, none, false⟩]⟩,
        ⟨⟨Desc.prim "int", some "b", false⟩, 0,
          [⟨Desc.comp 0, none, false⟩]⟩] ∧
    (⟨Desc.prim "int", some "a", false⟩ : TypeNode).type =
      (⟨Desc.prim "int", some "b", false⟩ : TypeNode).type ∧
    (⟨Desc.prim "int", some "a", false⟩ : TypeNode) ≠
      ⟨Desc.prim "int", some "b", false⟩ := by
  refine ⟨by decide, by decide, by decide, rfl, by decide⟩

/-- C9 (amended): only the *visited set* is keyed on the bare descriptor —
`processPair` updates it as a function of the child descriptor alone,
regardless of label or cyclic flag — while the graph's node map
(`graphlib._node2info`, modelled by `ensureKey`) is keyed on the full
TypeNode: an existing key is reused only on full-node equality, otherwise
a fresh entry is appended. -/
theorem claim_C9 (env : TypeEnv) :
    (∀ (acc : BuildAcc) (var : Option String) (child : Desc),
      (processPair env acc (var, child)).visited =
        (if child = Desc.anyTy ∨ (child ∈ acc.visited ∧
            (issubscriptedgeneric env child || !isstdlibtype env child)
              = true)
          then acc.visited else insert child acc.visited)) ∧
    (∀ (g : List NodeInfo) (n : TypeNode),
      (n ∈ keysOf g → ensureKey g n = g) ∧
      (n ∉ keysOf g → ensureKey g n = g ++ [⟨n, 0, []⟩])) := by
  constructor
  · intro acc var child
    by_cases hany : child = Desc.anyTy
    · subst hany
      rw [processPair_skip, if_pos (Or.inl rfl)]
    by_cases hc : child ∈ acc.visited ∧
        (issubscriptedgeneric env child || !isstdlibtype env child) = true
    · rw [processPair_cyclic env acc var child hany hc,
        if_pos (Or.inr hc)]
    · have hcond : ¬(child = Desc.anyTy ∨ (child ∈ acc.visited ∧
          (issubscriptedgeneric env child || !isstdlibtype env child)
            = true)) := by
        rintro (h | h)
        · exact hany h
        · exact hc h
      rw [processPair_else env acc var child hany hc, if_neg hcond]
  · intro g n
    constructor
    · intro h
      unfold ensureKey
      rw [if_pos h]
    · intro h
      unfold ensureKey
      rw [if_neg h]

/-- Witness for the amended C9: a revisit of `int` under a new label
leaves the visited set unchanged, and the node map treats the two labelled
`int` nodes as different keys. -/
theorem claim_C9_witness :
    (processPair pair2Env ⟨[], {Desc.prim "int"}, []⟩
        (some "b", Desc.prim "int")).visited = {Desc.prim "int"} ∧
    ensureKey [⟨⟨Desc.prim "int", some "a", false⟩, 0, []⟩]
        ⟨Desc.prim "int", some "b", false⟩ =
      [⟨⟨Desc.prim "int", some "a", false⟩, 0, []⟩,
        ⟨⟨Desc.prim "int", some "b", false⟩, 0, []⟩] := by
  constructor
  · have h := (claim_C9 pair2Env).1 ⟨[], {Desc.prim "int"}, []⟩
      (some "b") (Desc.prim "int")
    rw [h]
    decide
  · have h := ((claim_C9 pair2Env).2
      [⟨⟨Desc.prim "int", some "a", false⟩, 0, []⟩]
      ⟨Desc.prim "int", some "b", false⟩).2 (by decide)
    rw [h]
    rfl

/-- C10: cycle detection consults only the global visited set: whenever a
cyclic-capable child descriptor is already in the visited set — with no
ancestor check whatsoever — the pair yields a cyclic placeholder; in
particular a non-recursive sibling occurrence (`S { x: list[str], y:
list[str] }`) is flagged cyclic in the Ordered Result. -/
theorem claim_C10 :
    (∀ (env : TypeEnv) (acc : BuildAcc) (var : Option String) (child : Desc),
      child ≠ Desc.anyTy → child ∈ acc.visited →
      (issubscriptedgeneric env child || !isstdlibtype env child) = true →
      processPair env acc (var, child) =
        { acc with preds := acc.preds ++
            [⟨forwardref (get_qualname env child) var.isSome
                (get_module env child) (isclass env child), var, true⟩] }) ∧
    static_order sibEnv 10 (Desc.comp 0) =
      some [⟨Desc.ref "list" true (some "builtins") false, some "y", true⟩,
        ⟨Desc.prim "str", none, false⟩, ⟨Desc.comp 1, some "x", false⟩,
        ⟨Desc.comp 0, none, false⟩] := by
  constructor
  · intro env acc var child h1 h2 h3
    exact processPair_cyclic env acc var child h1 ⟨h2, h3⟩
  · decide

/-- Witness for C10: the sibling revisit of `list[str]` under label `y`
produces the cyclic placeholder record. -/
theorem claim_C10_witness :
    processPair sibEnv ⟨[], {Desc.comp 1}, []⟩ (some "y", Desc.comp 1) =
      ⟨[⟨Desc.ref "list" true (some "builtins") false, some "y", true⟩],
        {Desc.comp 1}, []⟩ := by
  have h := (claim_C10).1 sibEnv ⟨[], {Desc.comp 1}, []⟩ (some "y")
    (Desc.comp 1) (by decide) (by decide) (by decide)
  rw [h]
  rfl

end Typelib
